import Mathlib

/-!
# Verification of the Generation & Live-Preview Orchestration Engine

Shallow embedding of the core algorithms of `backend/app/services/ai_generator.py`
and `backend/app/routes/clone.py`, with theorems settling the specification
claims about the capture partitioner, the artifact stitcher, the composition
assembler, the background pipeline cleanup, the section-agent retry logic, the
self-healing reverse proxy, and the output-cleaning pass.
-/

namespace Clonr

/-! ## Capture partitioner (`ai_generator.py`)

`MAX_PARALLEL_AGENTS = 5` (line 19), `_determine_agent_count` (lines 662-673),
`_assign_screenshots_to_agents` (lines 676-729). -/

/-- `MAX_PARALLEL_AGENTS = 5` from `ai_generator.py`. -/
def maxParallelAgents : Nat := 5

/-- Embeds `_determine_agent_count`: scale number of parallel agents based on
screenshot count, max 5. -/
def determineAgentCount (numScreenshots : Nat) : Nat :=
  if numScreenshots ≤ 1 then 1
  else if numScreenshots ≤ 2 then 2
  else if numScreenshots ≤ 4 then 3
  else if numScreenshots ≤ 6 then 4
  else min numScreenshots maxParallelAgents

/-- `count = base_count + (1 if a < remainder else 0)` in the strict-partition
loop of `_assign_screenshots_to_agents` (line 701). -/
def partitionCount (n numAgents a : Nat) : Nat :=
  n / numAgents + (if a < n % numAgents then 1 else 0)

/-- The running-index loop of `_assign_screenshots_to_agents` (lines 699-703)
building `partitions`: `partitions.append((idx, idx + count)); idx += count`.
`fuel` counts the remaining iterations (`numAgents - a`). -/
def partitionsAux (n numAgents : Nat) : Nat → Nat → Nat → List (Nat × Nat)
  | 0, _, _ => []
  | fuel + 1, a, idx =>
      let count := partitionCount n numAgents a
      (idx, idx + count) :: partitionsAux n numAgents fuel (a + 1) (idx + count)

/-- Embeds the `partitions` list of `_assign_screenshots_to_agents`: the strict
(core) index range `[start, end)` of each agent, before overlap extension. -/
def partitions (n numAgents : Nat) : List (Nat × Nat) :=
  partitionsAux n numAgents numAgents 0 0

/-- Closed form for the start index of agent `a`'s core range. -/
def pStart (n numAgents a : Nat) : Nat :=
  a * (n / numAgents) + min a (n % numAgents)

/-- The extended slice bounds `(overlap_start, overlap_end)` of agent `a`
(lines 706-712): one overlap screenshot into each neighbouring core range,
clamped to `n`. -/
def overlapBounds (n numAgents a : Nat) : Nat × Nat :=
  let p := (partitions n numAgents).getD a (0, 0)
  let overlapStart := if 0 < a then p.1 - 1 else p.1
  let overlapEnd := if a < numAgents - 1 then p.2 + 1 else p.2
  (overlapStart, min overlapEnd n)

/-- The core sub-range within agent `a`'s own screenshot list (lines 717-720):
`(start - overlap_start, start - overlap_start + (end - start))`. -/
def coreRangeInList (n numAgents a : Nat) : Nat × Nat :=
  let p := (partitions n numAgents).getD a (0, 0)
  let ob := overlapBounds n numAgents a
  (p.1 - ob.1, p.1 - ob.1 + (p.2 - p.1))

/-! ### Partitioner lemmas -/

theorem pStart_zero (n w : Nat) : pStart n w 0 = 0 := by
  simp [pStart]

theorem pStart_succ (n w a : Nat) :
    pStart n w (a + 1) = pStart n w a + partitionCount n w a := by
  unfold pStart partitionCount
  rcases lt_or_le a (n % w) with h | h
  · have h1 : min (a + 1) (n % w) = min a (n % w) + 1 := by omega
    rw [h1, if_pos h]; ring
  · have h1 : min (a + 1) (n % w) = min a (n % w) := by omega
    rw [h1, if_neg (not_lt.mpr h)]; ring

theorem pStart_mono (n w : Nat) {a b : Nat} (h : a ≤ b) :
    pStart n w a ≤ pStart n w b := by
  unfold pStart
  have h1 : a * (n / w) ≤ b * (n / w) := Nat.mul_le_mul_right _ h
  omega

theorem pStart_top (n w : Nat) (hw : 1 ≤ w) : pStart n w w = n := by
  unfold pStart
  have h1 : n % w < w := Nat.mod_lt _ (by omega)
  rw [Nat.min_eq_right (le_of_lt h1)]
  exact Nat.div_add_mod n w

theorem partitionsAux_eq_map (n w : Nat) (fuel a : Nat) :
    partitionsAux n w fuel a (pStart n w a) =
      (List.range fuel).map (fun i => (pStart n w (a + i), pStart n w (a + i + 1))) := by
  induction fuel generalizing a with
  | zero => simp [partitionsAux]
  | succ fuel ih =>
      rw [partitionsAux]
      have hstep : pStart n w a + partitionCount n w a = pStart n w (a + 1) :=
        (pStart_succ n w a).symm
      rw [hstep, ih (a + 1), List.range_succ_eq_map, List.map_cons, List.map_map]
      refine congrArg₂ List.cons ?_ (List.map_congr_left ?_)
      · simp
      · intro i _
        simp only [Function.comp_apply]
        have h1 : a + 1 + i = a + (i + 1) := by omega
        rw [h1]

theorem partitions_eq_map (n w : Nat) :
    partitions n w =
      (List.range w).map (fun a => (pStart n w a, pStart n w (a + 1))) := by
  have := partitionsAux_eq_map n w w 0
  simpa [partitions, pStart_zero] using this

theorem partitions_length (n w : Nat) : (partitions n w).length = w := by
  simp [partitions_eq_map]

theorem partitions_getD (n w a : Nat) (ha : a < w) :
    (partitions n w).getD a (0, 0) = (pStart n w a, pStart n w (a + 1)) := by
  have h1 : a < ((List.range w).map
      (fun a => (pStart n w a, pStart n w (a + 1)))).length := by simpa
  rw [partitions_eq_map, List.getD_eq_getElem _ _ h1, List.getElem_map,
    List.getElem_range]

/-- Size of agent `a`'s core range as recorded in `partitions`. -/
def coreSize (n w a : Nat) : Nat :=
  ((partitions n w).getD a (0, 0)).2 - ((partitions n w).getD a (0, 0)).1

theorem coreSize_eq (n w a : Nat) (ha : a < w) :
    coreSize n w a = partitionCount n w a := by
  unfold coreSize
  rw [partitions_getD n w a ha]
  have := pStart_succ n w a
  simp only
  omega

theorem partitionCount_antitone (n w : Nat) {a b : Nat} (h : a ≤ b) :
    partitionCount n w b ≤ partitionCount n w a := by
  unfold partitionCount
  split <;> split <;> omega

theorem exists_le_lt_succ (S : Nat → Nat) (w j : Nat) (h0 : S 0 = 0)
    (hj : j < S w) : ∃ a, a < w ∧ S a ≤ j ∧ j < S (a + 1) := by
  induction w with
  | zero => omega
  | succ w ih =>
      rcases lt_or_le j (S w) with h | h
      · obtain ⟨a, ha, h1, h2⟩ := ih h
        exact ⟨a, by omega, h1, h2⟩
      · exact ⟨w, by omega, h, hj⟩

theorem core_cover_unique (n w j : Nat) (hw : 1 ≤ w) (hj : j < n) :
    ∃! a, a < w ∧ pStart n w a ≤ j ∧ j < pStart n w (a + 1) := by
  obtain ⟨a, ha, h1, h2⟩ := exists_le_lt_succ (pStart n w) w j (pStart_zero n w)
    (by rw [pStart_top n w hw]; exact hj)
  refine ⟨a, ⟨ha, h1, h2⟩, ?_⟩
  rintro b ⟨hb, hb1, hb2⟩
  by_contra hne
  rcases Nat.lt_or_ge b a with h | h
  · have := pStart_mono n w (show b + 1 ≤ a by omega)
    omega
  · have := pStart_mono n w (show a + 1 ≤ b by omega)
    omega

theorem determineAgentCount_pos (n : Nat) : 1 ≤ determineAgentCount n := by
  unfold determineAgentCount maxParallelAgents
  split_ifs <;> omega

theorem determineAgentCount_le (n : Nat) (hn : 1 ≤ n) :
    determineAgentCount n ≤ n ∧ determineAgentCount n ≤ 5 := by
  unfold determineAgentCount maxParallelAgents
  split_ifs <;> omega

/-- C1: for every list of N ≥ 1 screenshots and the worker count W chosen for
it (W ≤ N, capped at 5), the per-worker core ranges computed by the partitioner
are contiguous, cover indices 0..N-1 with no gaps, no index lies in two
different workers' core ranges, and the remainder goes to the earliest workers;
7 snapshots yield 5 workers with core sizes [2,2,1,1,1] and a single-snapshot
overlap into each neighbouring core at every internal boundary. -/
theorem C1_partition_core_ranges (n : Nat) (hn : 1 ≤ n) :
    ((partitions n (determineAgentCount n)).length = determineAgentCount n
      ∧ determineAgentCount n ≤ n ∧ determineAgentCount n ≤ 5
      ∧ (∀ a, a + 1 < determineAgentCount n →
          ((partitions n (determineAgentCount n)).getD (a + 1) (0, 0)).1 =
            ((partitions n (determineAgentCount n)).getD a (0, 0)).2)
      ∧ ((partitions n (determineAgentCount n)).getD 0 (0, 0)).1 = 0
      ∧ ((partitions n (determineAgentCount n)).getD
            (determineAgentCount n - 1) (0, 0)).2 = n
      ∧ (∀ j, j < n → ∃! a, a < determineAgentCount n ∧
            ((partitions n (determineAgentCount n)).getD a (0, 0)).1 ≤ j ∧
            j < ((partitions n (determineAgentCount n)).getD a (0, 0)).2)
      ∧ (∀ a b, a ≤ b → b < determineAgentCount n →
            coreSize n (determineAgentCount n) b ≤
              coreSize n (determineAgentCount n) a))
    ∧ (determineAgentCount 7 = 5
      ∧ partitions 7 5 = [(0, 2), (2, 4), (4, 5), (5, 6), (6, 7)]
      ∧ (partitions 7 5).map (fun p => p.2 - p.1) = [2, 2, 1, 1, 1]
      ∧ (List.range 5).map (overlapBounds 7 5) =
          [(0, 3), (1, 5), (3, 6), (4, 7), (5, 7)]
      ∧ (List.range 5).map (coreRangeInList 7 5) =
          [(0, 2), (1, 3), (1, 2), (1, 2), (1, 2)]) := by
  set w := determineAgentCount n with hw
  have hw1 : 1 ≤ w := determineAgentCount_pos n
  refine ⟨⟨partitions_length n w, (determineAgentCount_le n hn).1,
    (determineAgentCount_le n hn).2, ?_, ?_, ?_, ?_, ?_⟩, by decide, by decide,
    by decide, by decide, by decide⟩
  · intro a ha
    rw [partitions_getD n w (a + 1) ha, partitions_getD n w a (by omega)]
  · rw [partitions_getD n w 0 (by omega), pStart_zero]
  · rw [partitions_getD n w (w - 1) (by omega)]
    have : w - 1 + 1 = w := by omega
    rw [this, pStart_top n w hw1]
  · intro j hj
    obtain ⟨a, ⟨ha, h1, h2⟩, uniq⟩ := core_cover_unique n w j hw1 hj
    refine ⟨a, ⟨ha, ?_, ?_⟩, ?_⟩
    · rw [partitions_getD n w a ha]; exact h1
    · rw [partitions_getD n w a ha]; exact h2
    · rintro b ⟨hb, hb1, hb2⟩
      rw [partitions_getD n w b hb] at hb1 hb2
      exact uniq b ⟨hb, hb1, hb2⟩
  · intro a b hab hb
    rw [coreSize_eq n w b hb, coreSize_eq n w a (by omega)]
    exact partitionCount_antitone n w hab

/-- Witness for C1 at the concrete input n = 7. -/
theorem C1_partition_core_ranges_witness :
    1 ≤ 7 ∧ determineAgentCount 7 = 5 :=
  ⟨by decide, (C1_partition_core_ranges 7 (by decide)).2.1⟩

/-! ## Artifact stitcher duplicate resolution (`ai_generator.py`)

The collision-resolution block of `generate_clone_parallel` (lines 1426-1448):
for a component name produced by several agents, pick the surviving version by
keyword heuristics on the lowercased name. -/

/-- Lowercase one ASCII character: the effect of Python `str.lower()` on the
characters of a component name. -/
def charLower (c : Char) : Char :=
  if 65 ≤ c.toNat ∧ c.toNat ≤ 90 then Char.ofNat (c.toNat + 32) else c

/-- `comp_name.lower()` as a character list. -/
def lowerChars (s : String) : List Char := s.toList.map charLower

/-- Substring containment, the Python `kw in name_lower` test. -/
def containsSub (s : List Char) (pat : String) : Bool :=
  decide (pat.toList <:+: s)

/-- The navigation vocabulary `("nav", "header", "menu", "topbar")`. -/
def navKeywords : List String := ["nav", "header", "menu", "topbar"]

/-- The footer vocabulary `("footer", "bottom")`. -/
def footerKeywords : List String := ["footer", "bottom"]

/-- `any(kw in name_lower for kw in ("nav", "header", "menu", "topbar"))`. -/
def isNavName (name : String) : Bool :=
  navKeywords.any (fun kw => containsSub (lowerChars name) kw)

/-- `any(kw in name_lower for kw in ("footer", "bottom"))`. -/
def isFooterName (name : String) : Bool :=
  footerKeywords.any (fun kw => containsSub (lowerChars name) kw)

/-- Minimum of a list of naturals, the Python builtin `min` over a non-empty
list (0 for an empty one). -/
def listMin : List Nat → Nat
  | [] => 0
  | x :: xs => xs.foldl Nat.min x

/-- Maximum of a list of naturals, the Python builtin `max` over a non-empty
list (0 for an empty one). -/
def listMax : List Nat → Nat
  | [] => 0
  | x :: xs => xs.foldl Nat.max x

/-- Python `min(range(len(xs)), key=lambda i: xs[i])`: the first index
attaining the minimal value. -/
def argminIdx (xs : List Nat) : Nat := xs.indexOf (listMin xs)

/-- Python `max(range(len(xs)), key=lambda i: xs[i])`: the first index
attaining the maximal value. -/
def argmaxIdx (xs : List Nat) : Nat := xs.indexOf (listMax xs)

/-- Embeds the duplicate-resolution rule of `generate_clone_parallel`
(lines 1434-1444): given the component name and the `_agent` tags of the
colliding versions, the position of the surviving version. -/
def chooseBestIdx (compName : String) (agents : List Nat) : Nat :=
  if isNavName compName then argminIdx agents
  else if isFooterName compName then argmaxIdx agents
  else argmaxIdx agents

theorem foldl_min_mem (a : Nat) (xs : List Nat) :
    xs.foldl Nat.min a ∈ a :: xs := by
  induction xs generalizing a with
  | nil => simp [List.foldl]
  | cons x xs ih =>
      have h := ih (Nat.min a x)
      simp only [List.foldl_cons]
      rcases List.mem_cons.mp h with h2 | h2
      · have h1 : Nat.min a x = a ∨ Nat.min a x = x := by
          rcases Nat.le_total a x with hax | hax
          · exact Or.inl (Nat.min_eq_left hax)
          · exact Or.inr (Nat.min_eq_right hax)
        rcases h1 with h1 | h1
        · rw [h2, h1]; exact List.mem_cons_self _ _
        · rw [h2, h1]; exact List.mem_cons_of_mem _ (List.mem_cons_self _ _)
      · exact List.mem_cons_of_mem _ (List.mem_cons_of_mem _ h2)

theorem foldl_min_le (a : Nat) (xs : List Nat) :
    xs.foldl Nat.min a ≤ a ∧ ∀ y ∈ xs, xs.foldl Nat.min a ≤ y := by
  induction xs generalizing a with
  | nil => simp [List.foldl]
  | cons x xs ih =>
      obtain ⟨h1, h2⟩ := ih (Nat.min a x)
      refine ⟨le_trans h1 (Nat.min_le_left _ _), ?_⟩
      intro y hy
      rcases List.mem_cons.mp hy with h | h
      · subst h; exact le_trans h1 (Nat.min_le_right _ _)
      · exact h2 y h

theorem foldl_max_mem (a : Nat) (xs : List Nat) :
    xs.foldl Nat.max a ∈ a :: xs := by
  induction xs generalizing a with
  | nil => simp [List.foldl]
  | cons x xs ih =>
      have h := ih (Nat.max a x)
      simp only [List.foldl_cons]
      rcases List.mem_cons.mp h with h2 | h2
      · have h1 : Nat.max a x = a ∨ Nat.max a x = x := by
          rcases Nat.le_total a x with hax | hax
          · exact Or.inr (Nat.max_eq_right hax)
          · exact Or.inl (Nat.max_eq_left hax)
        rcases h1 with h1 | h1
        · rw [h2, h1]; exact List.mem_cons_self _ _
        · rw [h2, h1]; exact List.mem_cons_of_mem _ (List.mem_cons_self _ _)
      · exact List.mem_cons_of_mem _ (List.mem_cons_of_mem _ h2)

theorem foldl_max_ge (a : Nat) (xs : List Nat) :
    a ≤ xs.foldl Nat.max a ∧ ∀ y ∈ xs, y ≤ xs.foldl Nat.max a := by
  induction xs generalizing a with
  | nil => simp [List.foldl]
  | cons x xs ih =>
      obtain ⟨h1, h2⟩ := ih (Nat.max a x)
      refine ⟨le_trans (Nat.le_max_left _ _) h1, ?_⟩
      intro y hy
      rcases List.mem_cons.mp hy with h | h
      · subst h; exact le_trans (Nat.le_max_right _ _) h1
      · exact h2 y h

theorem listMin_mem {xs : List Nat} (h : xs ≠ []) : listMin xs ∈ xs := by
  cases xs with
  | nil => simp at h
  | cons x xs => simpa [listMin] using foldl_min_mem x xs

theorem listMin_le {xs : List Nat} : ∀ y ∈ xs, listMin xs ≤ y := by
  cases xs with
  | nil => simp
  | cons x xs =>
      intro y hy
      rcases List.mem_cons.mp hy with h | h
      · rw [h]; exact (foldl_min_le x xs).1
      · exact (foldl_min_le x xs).2 y h

theorem listMax_mem {xs : List Nat} (h : xs ≠ []) : listMax xs ∈ xs := by
  cases xs with
  | nil => simp at h
  | cons x xs => simpa [listMax] using foldl_max_mem x xs

theorem listMax_ge {xs : List Nat} : ∀ y ∈ xs, y ≤ listMax xs := by
  cases xs with
  | nil => simp
  | cons x xs =>
      intro y hy
      rcases List.mem_cons.mp hy with h | h
      · rw [h]; exact (foldl_max_ge x xs).1
      · exact (foldl_max_ge x xs).2 y h

theorem getD_indexOf {xs : List Nat} {v : Nat} (h : v ∈ xs) :
    xs.getD (xs.indexOf v) 0 = v := by
  have hlt : xs.indexOf v < xs.length := List.indexOf_lt_length.mpr h
  rw [List.getD_eq_getElem _ _ hlt]
  exact List.getElem_indexOf hlt

/-- C2: for a component path produced by more than one worker, the surviving
version is a deterministic function of the component name and the contributing
worker indices: a navigation/header-vocabulary name keeps the lowest
contributing worker index, a footer-vocabulary name keeps the highest, any
other name keeps the highest; an artifact named Footer contributed by workers
2 and 4 keeps worker 4's version. -/
theorem C2_stitcher_duplicate_resolution :
    (∀ name (agents : List Nat), agents ≠ [] →
      ((isNavName name = true →
          agents.getD (chooseBestIdx name agents) 0 = listMin agents
          ∧ ∀ i ∈ agents, listMin agents ≤ i)
        ∧ (isNavName name = false → isFooterName name = true →
            agents.getD (chooseBestIdx name agents) 0 = listMax agents
            ∧ ∀ i ∈ agents, i ≤ listMax agents)
        ∧ (isNavName name = false → isFooterName name = false →
            agents.getD (chooseBestIdx name agents) 0 = listMax agents
            ∧ ∀ i ∈ agents, i ≤ listMax agents)))
    ∧ (isFooterName "Footer" = true ∧ isNavName "Footer" = false
        ∧ chooseBestIdx "Footer" [2, 4] = 1
        ∧ [2, 4].getD (chooseBestIdx "Footer" [2, 4]) 0 = 4) := by
  refine ⟨?_, by decide, by decide, by decide, by decide⟩
  intro name agents hne
  refine ⟨?_, ?_, ?_⟩
  · intro hnav
    rw [chooseBestIdx, if_pos hnav]
    exact ⟨getD_indexOf (listMin_mem hne), listMin_le⟩
  · intro hnav hfoot
    rw [chooseBestIdx, if_neg (by simp [hnav]), if_pos hfoot]
    exact ⟨getD_indexOf (listMax_mem hne), listMax_ge⟩
  · intro hnav hfoot
    rw [chooseBestIdx, if_neg (by simp [hnav]), if_neg (by simp [hfoot])]
    exact ⟨getD_indexOf (listMax_mem hne), listMax_ge⟩

/-- Witness for C2 at the concrete input (name Footer, workers 2 and 4). -/
theorem C2_stitcher_duplicate_resolution_witness :
    ([2, 4] : List Nat) ≠ [] ∧
      (isFooterName "Footer" = false ∨
        [2, 4].getD (chooseBestIdx "Footer" [2, 4]) 0 = listMax [2, 4]
        ∧ ∀ i ∈ [2, 4], i ≤ listMax ([2, 4] : List Nat)) :=
  ⟨by decide, Or.inr
    ((C2_stitcher_duplicate_resolution.1 "Footer" [2, 4] (by decide)).2.1
      (by decide) (by decide))⟩


/-! ## Fallback composition assembler (`ai_generator.py`)

`_fallback_page` (lines 983-1006): deterministically synthesize `app/page.tsx`
by importing each unique component once, in worker order, first occurrence
wins, inside a minimal wrapper. -/

/-- One entry of `component_order`: `(comp_name, import_path, agent_num)`. -/
structure CompOrderEntry where
  name : String
  importPath : String
  agentNum : Nat
deriving DecidableEq

/-- The dedup loop of `_fallback_page` (lines 985-991): a name already in
`seen_names` is skipped (first occurrence, i.e. lowest agent, wins); kept
entries are returned in order. -/
def fallbackUnique : List CompOrderEntry → List String → List CompOrderEntry
  | [], _ => []
  | e :: rest, seen =>
      if e.name ∈ seen then fallbackUnique rest seen
      else e :: fallbackUnique rest (e.name :: seen)

/-- String join with a separator, Python `sep.join(xs)`. -/
def joinWith (sep : String) : List String → String
  | [] => ""
  | [x] => x
  | x :: xs => x ++ sep ++ joinWith sep xs

/-- The `import_lines` built by `_fallback_page` (line 992). -/
def fallbackImportLines (order : List CompOrderEntry) : List String :=
  (fallbackUnique order []).map
    (fun e => "import " ++ e.name ++ " from \"" ++ e.importPath ++ "\";")

/-- The `render_lines` built by `_fallback_page` (line 993). -/
def fallbackRenderLines (order : List CompOrderEntry) : List String :=
  (fallbackUnique order []).map (fun e => "      <" ++ e.name ++ " />")

/-- Embeds `_fallback_page` (lines 995-1005): the mechanical `page.tsx`. -/
def fallbackPage (order : List CompOrderEntry) : String :=
  "\"use client\";\n\n"
    ++ joinWith "\n" (fallbackImportLines order) ++ "\n\n"
    ++ "export default function Home() \x7b\n"
    ++ "  return (\n"
    ++ "    <main className=\"min-h-screen\">\n"
    ++ joinWith "\n" (fallbackRenderLines order) ++ "\n"
    ++ "    </main>\n"
    ++ "  );\n"
    ++ "\x7d\n"

/-- The component names the fallback page imports, one per import line. -/
def importedNames (order : List CompOrderEntry) : List String :=
  (fallbackUnique order []).map CompOrderEntry.name

theorem fallbackUnique_nodup_disjoint (order : List CompOrderEntry)
    (seen : List String) :
    ((fallbackUnique order seen).map CompOrderEntry.name).Nodup
    ∧ ∀ nm ∈ (fallbackUnique order seen).map CompOrderEntry.name, nm ∉ seen := by
  induction order generalizing seen with
  | nil => simp [fallbackUnique]
  | cons e rest ih =>
      rw [fallbackUnique]
      split
      · exact ih seen
      · obtain ⟨h1, h2⟩ := ih (e.name :: seen)
        refine ⟨?_, ?_⟩
        · simp only [List.map_cons, List.nodup_cons]
          exact ⟨fun hmem => (h2 _ hmem) (List.mem_cons_self _ _), h1⟩
        · intro nm hnm
          simp only [List.map_cons, List.mem_cons] at hnm
          rcases hnm with h | h
          · subst h; assumption
          · have := h2 nm h
            intro hc; exact this (List.mem_cons_of_mem _ hc)

theorem fallbackUnique_mem (order : List CompOrderEntry) (seen : List String)
    (nm : String) :
    nm ∈ (fallbackUnique order seen).map CompOrderEntry.name ↔
      (nm ∈ order.map CompOrderEntry.name ∧ nm ∉ seen) := by
  induction order generalizing seen with
  | nil => simp [fallbackUnique]
  | cons e rest ih =>
      rw [fallbackUnique]
      by_cases hseen : e.name ∈ seen
      · rw [if_pos hseen, ih seen]
        simp only [List.map_cons, List.mem_cons]
        constructor
        · rintro ⟨h1, h2⟩
          exact ⟨Or.inr h1, h2⟩
        · rintro ⟨h1 | h1, h2⟩
          · subst h1; exact absurd hseen h2
          · exact ⟨h1, h2⟩
      · rw [if_neg hseen]
        simp only [List.map_cons, List.mem_cons, ih (e.name :: seen),
          not_or]
        constructor
        · rintro (h | ⟨h1, h2⟩)
          · subst h; exact ⟨Or.inl rfl, hseen⟩
          · exact ⟨Or.inr h1, h2.2⟩
        · rintro ⟨h1 | h1, h2⟩
          · exact Or.inl h1
          · by_cases hne : nm = e.name
            · exact Or.inl hne
            · exact Or.inr ⟨h1, hne, h2⟩

theorem fallbackUnique_sublist (order : List CompOrderEntry)
    (seen : List String) : List.Sublist (fallbackUnique order seen) order := by
  induction order generalizing seen with
  | nil => simp [fallbackUnique]
  | cons e rest ih =>
      rw [fallbackUnique]
      split
      · exact (ih seen).cons e
      · exact (ih (e.name :: seen)).cons₂ e

theorem fallbackUnique_first_occurrence (order : List CompOrderEntry)
    (seen : List String) :
    ∀ e ∈ fallbackUnique order seen,
      order.find? (fun e2 => e2.name == e.name) = some e := by
  induction order generalizing seen with
  | nil => simp [fallbackUnique]
  | cons o rest ih =>
      intro e he
      rw [fallbackUnique] at he
      by_cases hseen : o.name ∈ seen
      · rw [if_pos hseen] at he
        have hnot := (fallbackUnique_nodup_disjoint rest seen).2 _
          (List.mem_map_of_mem CompOrderEntry.name he)
        have hne : ¬((fun e2 : CompOrderEntry => e2.name == e.name) o = true) := by
          simp only [beq_iff_eq]
          intro hc; rw [hc] at hseen; exact hnot hseen
        exact (List.find?_cons_of_neg rest hne).trans (ih seen e he)
      · rw [if_neg hseen] at he
        rcases List.mem_cons.mp he with h | h
        · subst h
          exact List.find?_cons_of_pos _ (by simp)
        · have hnot := (fallbackUnique_nodup_disjoint rest (o.name :: seen)).2 _
            (List.mem_map_of_mem CompOrderEntry.name h)
          have hne : ¬((fun e2 : CompOrderEntry => e2.name == e.name) o = true) := by
            simp only [beq_iff_eq]
            intro hc
            exact hnot (by rw [← hc]; exact List.mem_cons_self _ _)
          exact (List.find?_cons_of_neg rest hne).trans (ih (o.name :: seen) e h)

/-- C3: for every non-empty component-order list, the fallback assembler
deterministically imports every unique surviving component name exactly once,
in worker order with the first occurrence winning, renders exactly the imported
components, and never imports a name absent from the surviving set. -/
theorem C3_fallback_composition (order : List CompOrderEntry)
    (hne : order ≠ []) :
    (importedNames order).Nodup
    ∧ (∀ nm, nm ∈ importedNames order ↔ nm ∈ order.map CompOrderEntry.name)
    ∧ List.Sublist (importedNames order) (order.map CompOrderEntry.name)
    ∧ (∀ e ∈ fallbackUnique order [],
        order.find? (fun e2 => e2.name == e.name) = some e)
    ∧ (fallbackRenderLines order).length = (fallbackImportLines order).length
    ∧ importedNames order ≠ [] := by
  refine ⟨(fallbackUnique_nodup_disjoint order []).1,
    fun nm => by rw [importedNames]; simpa using fallbackUnique_mem order [] nm,
    List.Sublist.map _ (fallbackUnique_sublist order []),
    fallbackUnique_first_occurrence order [],
    by simp [fallbackRenderLines, fallbackImportLines], ?_⟩
  intro hc
  match order, hne with
  | e :: rest, _ =>
      have := (fallbackUnique_mem (e :: rest) [] e.name).mpr (by simp)
      rw [importedNames] at hc
      simp [hc] at this

/-- Witness for C3 at a concrete two-entry order with a duplicate name. -/
theorem C3_fallback_composition_witness :
    ([⟨"Hero", "@/components/Hero", 1⟩, ⟨"Hero", "@/components/Hero", 2⟩] :
        List CompOrderEntry) ≠ []
    ∧ (importedNames
        [⟨"Hero", "@/components/Hero", 1⟩, ⟨"Hero", "@/components/Hero", 2⟩]).Nodup :=
  ⟨by decide,
    (C3_fallback_composition
      [⟨"Hero", "@/components/Hero", 1⟩, ⟨"Hero", "@/components/Hero", 2⟩]
      (by decide)).1⟩

/-! ## Composition assembler validation (`ai_generator.py`)

`_assemble_page` (lines 915-980): the AI-produced page is validated against
the component set; call failure, empty response, or any validation mismatch
substitutes the deterministic fallback. -/

/-- The validation of `_assemble_page` (lines 947-966) on the set of imported
names extracted by `set(re.findall(...))` from the page versus the set of
component names: accepted iff `import_names - valid_names` and
`unique_names - import_names` are both empty. -/
def assembleAccepts (importList : List String)
    (order : List CompOrderEntry) : Bool :=
  importList.all (fun nm => nm ∈ order.map CompOrderEntry.name)
    && (order.map CompOrderEntry.name).all (fun nm => nm ∈ importList)

/-- Embeds the control flow of `_assemble_page` (lines 915-980). `call = none`
models an exception from the external call; `some raw` its response content.
`clean` models `_clean_code` plus the import-extraction regex, giving the
cleaned page and the list of import-statement names found in it. An empty
response or a validation mismatch substitutes `_fallback_page`. -/
def assemblePageResult (call : Option String)
    (clean : String → String × List String)
    (order : List CompOrderEntry) : String :=
  match call with
  | none => fallbackPage order
  | some raw =>
      if raw = "" then fallbackPage order
      else
        let c := clean raw
        if assembleAccepts c.2 order then c.1 else fallbackPage order

/-- C4 counterexample: a page whose import statements are `A` twice passes
validation against the single generated component `A` (imports are collected
as a set), so validation does not enforce "imported exactly once". -/
theorem C4_assembler_validation_counterexample :
    assembleAccepts ["A", "A"] [⟨"A", "@/components/A", 1⟩] = true
    ∧ List.count "A" ["A", "A"] = 2 := by decide

/-- C4 (amended): the AI-assisted composition is accepted only if every name
it imports exists in the generated component set and every unique generated
component name is imported at least once (imports are collected as a set, so a
duplicated import of the same name is not rejected); on any mismatch, call
failure, or empty response the deterministic fallback is substituted, so
assembly always yields a page. -/
theorem C4_assembler_validation (order : List CompOrderEntry)
    (clean : String → String × List String) :
    (∀ importList : List String,
      assembleAccepts importList order = true ↔
        ((∀ nm ∈ importList, nm ∈ order.map CompOrderEntry.name)
          ∧ ∀ nm ∈ order.map CompOrderEntry.name, nm ∈ importList))
    ∧ (∀ call, assemblePageResult call clean order = fallbackPage order
        ∨ ∃ raw, call = some raw ∧ raw ≠ ""
            ∧ assembleAccepts (clean raw).2 order = true
            ∧ assemblePageResult call clean order = (clean raw).1) := by
  constructor
  · intro importList
    simp [assembleAccepts, List.all_eq_true]
  · intro call
    match call with
    | none => exact Or.inl rfl
    | some raw =>
        by_cases hraw : raw = ""
        · exact Or.inl (by simp [assemblePageResult, hraw])
        · by_cases hacc : assembleAccepts (clean raw).2 order = true
          · exact Or.inr ⟨raw, rfl, hraw, hacc,
              by simp [assemblePageResult, hraw, hacc]⟩
          · exact Or.inl (by
              simp only [assemblePageResult, if_neg hraw]
              rw [if_neg hacc])

/-- C4 witness: the acceptance criterion instantiated at the single
component `A` and the import list `["A"]`. -/
theorem C4_assembler_validation_witness :
    assembleAccepts ["A"] [CompOrderEntry.mk "A" "@/components/A" 1] = true ↔
      ((∀ nm ∈ ["A"],
          nm ∈ ([CompOrderEntry.mk "A" "@/components/A" 1] :
            List CompOrderEntry).map CompOrderEntry.name)
        ∧ ∀ nm ∈ ([CompOrderEntry.mk "A" "@/components/A" 1] :
            List CompOrderEntry).map CompOrderEntry.name, nm ∈ ["A"]) :=
  (C4_assembler_validation [CompOrderEntry.mk "A" "@/components/A" 1]
    (fun s => (s, [s]))).1 ["A"]

/-! ## Stitching and final deduplication (`ai_generator.py`)

`_stitch_results` (lines 732-782) and the final dedup block of
`generate_clone_parallel` (lines 1412-1450). -/

/-- A generated file: path, content and, after stitching, the producing
agent's 1-based `_agent` tag. -/
structure GenFile where
  path : String
  content : String
  agent : Nat
deriving DecidableEq

/-- Prefix test on character lists (Python `str.startswith`). -/
def isPrefixOfChars : List Char → List Char → Bool
  | [], _ => true
  | _ :: _, [] => false
  | a :: as, b :: bs => a == b && isPrefixOfChars as bs

/-- Python `str.replace(old, new)` on character lists: replace every
occurrence left to right, continuing after the replacement. The `pat = []`
case returns the input unchanged (every call site uses a non-empty pattern). -/
def replaceChars (pat sub : List Char) (l : List Char) : List Char :=
  if hp : pat = [] then l
  else
    match l with
    | [] => []
    | c :: rest =>
        if isPrefixOfChars pat (c :: rest) then
          sub ++ replaceChars pat sub ((c :: rest).drop pat.length)
        else
          c :: replaceChars pat sub rest
termination_by l.length
decreasing_by
  · simp only [List.length_drop, List.length_cons]
    have : 1 ≤ pat.length := by
      cases pat with
      | nil => exact absurd rfl hp
      | cons p ps => simp
    omega
  · simp

/-- `path.startswith("components/") and path.count("/") == 1` (line 764). -/
def isComponentPath (path : String) : Bool :=
  isPrefixOfChars "components/".toList path.toList
    && (path.toList.count '/' == 1)

/-- `path.replace("components/", "").replace(".tsx", "").replace(".jsx", "")`
(lines 765 and 1421). -/
def compNameOf (path : String) : String :=
  String.mk (replaceChars ".jsx".toList [] (replaceChars ".tsx".toList []
    (replaceChars "components/".toList [] path.toList)))

/-- Embeds the file-collection loop of `_stitch_results` (lines 745-767):
every agent file except `app/page.tsx` is kept (duplicates included) and
tagged with its producing agent's 1-based index. -/
def stitchFiles (agentResults : List (List (String × String))) : List GenFile :=
  agentResults.enum.flatMap (fun p =>
    (p.2.filter (fun f => !(f.1 == "app/page.tsx"))).map
      (fun f => ⟨f.1, f.2, p.1 + 1⟩))

/-- First-occurrence deduplication with a seen-set (Python dict key order for
`name_to_files`). -/
def dedupFirstAux : List String → List String → List String
  | [], _ => []
  | x :: xs, seen =>
      if x ∈ seen then dedupFirstAux xs seen
      else x :: dedupFirstAux xs (x :: seen)

/-- Key order of the `name_to_files` dict (lines 1416-1422). -/
def dedupFirst (xs : List String) : List String := dedupFirstAux xs []

/-- `name_to_files[comp_name]`: the versions of one component name, in
stitched order (lines 1418-1422). -/
def componentVersions (files : List GenFile) (name : String) : List GenFile :=
  files.filter (fun f => isComponentPath f.path && compNameOf f.path == name)

/-- The per-name selection of the dedup block (lines 1427-1448): a single
version is kept as-is, several versions go through the keyword heuristic. -/
def chooseVersion (versions : List GenFile) (name : String) : List GenFile :=
  match versions with
  | [] => []
  | [v] => [v]
  | _ =>
      [versions.getD (chooseBestIdx name (versions.map GenFile.agent))
        ⟨"", "", 0⟩]

/-- The `chosen_files` list (lines 1426-1448): one surviving version per
imported component name, in dict key order. -/
def chosenFiles (files : List GenFile) (importedNms : List String) :
    List GenFile :=
  (dedupFirst ((files.filter (fun f => isComponentPath f.path)).map
      (fun f => compNameOf f.path))).flatMap
    (fun name =>
      if name ∈ importedNms then
        chooseVersion (componentVersions files name) name
      else [])

/-- The `non_component_files` list (lines 1417-1424). -/
def nonComponentFiles (files : List GenFile) : List GenFile :=
  files.filter (fun f => !isComponentPath f.path)

/-- `all_files = [page] + chosen_files + non_component_files` (line 1450). -/
def finalFiles (page : String) (files : List GenFile)
    (importedNms : List String) : List GenFile :=
  ⟨"app/page.tsx", page, 0⟩ :: (chosenFiles files importedNms
    ++ nonComponentFiles files)

/-! ### Lemmas for the final file list -/

theorem chooseBestIdx_lt (name : String) {agents : List Nat}
    (h : agents ≠ []) : chooseBestIdx name agents < agents.length := by
  unfold chooseBestIdx argminIdx argmaxIdx
  split_ifs
  · exact List.indexOf_lt_length.mpr (listMin_mem h)
  · exact List.indexOf_lt_length.mpr (listMax_mem h)
  · exact List.indexOf_lt_length.mpr (listMax_mem h)

theorem chooseVersion_subset (versions : List GenFile) (name : String) :
    ∀ v ∈ chooseVersion versions name, v ∈ versions := by
  intro v hv
  match versions with
  | [] => simp [chooseVersion] at hv
  | [x] =>
      have he : chooseVersion [x] name = [x] := rfl
      rw [he, List.mem_singleton] at hv
      simp [hv]
  | x :: y :: rest =>
      have he : chooseVersion (x :: y :: rest) name =
          [(x :: y :: rest).getD
            (chooseBestIdx name ((x :: y :: rest).map GenFile.agent))
            ⟨"", "", 0⟩] := rfl
      rw [he, List.mem_singleton] at hv
      subst hv
      have hlt : chooseBestIdx name ((x :: y :: rest).map GenFile.agent) <
          (x :: y :: rest).length := by
        have h1 := chooseBestIdx_lt name
          (show (x :: y :: rest).map GenFile.agent ≠ [] from by simp)
        simpa using h1
      rw [List.getD_eq_getElem _ _ hlt]
      exact List.getElem_mem hlt

theorem chooseVersion_length_le (versions : List GenFile) (name : String) :
    (chooseVersion versions name).length ≤ 1 := by
  match versions with
  | [] => simp [chooseVersion]
  | [x] => simp [chooseVersion]
  | x :: y :: rest =>
      have he : chooseVersion (x :: y :: rest) name =
          [(x :: y :: rest).getD
            (chooseBestIdx name ((x :: y :: rest).map GenFile.agent))
            ⟨"", "", 0⟩] := rfl
      rw [he]
      simp

theorem componentVersions_spec (files : List GenFile) (name : String) :
    ∀ v ∈ componentVersions files name,
      isComponentPath v.path = true ∧ compNameOf v.path = name := by
  intro v hv
  unfold componentVersions at hv
  have h1 := List.of_mem_filter hv
  simp only [Bool.and_eq_true, beq_iff_eq] at h1
  exact h1

theorem dedupFirstAux_nodup (xs seen : List String) :
    (dedupFirstAux xs seen).Nodup
    ∧ ∀ nm ∈ dedupFirstAux xs seen, nm ∉ seen := by
  induction xs generalizing seen with
  | nil => simp [dedupFirstAux]
  | cons x rest ih =>
      rw [dedupFirstAux]
      by_cases hseen : x ∈ seen
      · rw [if_pos hseen]
        exact ih seen
      · rw [if_neg hseen]
        obtain ⟨h1, h2⟩ := ih (x :: seen)
        refine ⟨List.nodup_cons.mpr ⟨?_, h1⟩, ?_⟩
        · intro hmem
          exact (h2 x hmem) (List.mem_cons_self _ _)
        · intro nm hnm
          rcases List.mem_cons.mp hnm with h | h
          · subst h; exact hseen
          · intro hc
            exact (h2 nm h) (List.mem_cons_of_mem _ hc)

theorem dedupFirst_nodup (xs : List String) : (dedupFirst xs).Nodup :=
  (dedupFirstAux_nodup xs []).1

theorem nodup_flatMap_paths (g : String → List GenFile)
    (names : List String) (hnd : names.Nodup)
    (hone : ∀ nm, (g nm).length ≤ 1)
    (hname : ∀ nm, ∀ f ∈ g nm, compNameOf f.path = nm) :
    ((names.flatMap g).map GenFile.path).Nodup := by
  induction names with
  | nil => simp
  | cons nm rest ih =>
      rw [List.flatMap_cons, List.map_append]
      rw [List.nodup_cons] at hnd
      refine List.Nodup.append ?_ (ih hnd.2) ?_
      · rcases hg : g nm with _ | ⟨x, xs⟩
        · simp
        · have hxs : xs = [] := by
            have h1 := hone nm
            rw [hg] at h1
            simp only [List.length_cons] at h1
            exact List.length_eq_zero.mp (by omega)
          subst hxs
          simp
      · intro p hp1 hp2
        obtain ⟨f, hf, hfp⟩ := List.mem_map.mp hp1
        obtain ⟨f2, hf2, hfp2⟩ := List.mem_map.mp hp2
        obtain ⟨nm2, hnm2, hf2g⟩ := List.mem_flatMap.mp hf2
        have e1 : compNameOf p = nm := hfp ▸ hname nm f hf
        have e2 : compNameOf p = nm2 := hfp2 ▸ hname nm2 f2 hf2g
        have e3 : nm = nm2 := by rw [← e1, e2]
        exact hnd.1 (e3 ▸ hnm2)

theorem chosenFiles_component (files : List GenFile)
    (importedNms : List String) :
    ∀ f ∈ chosenFiles files importedNms, isComponentPath f.path = true := by
  intro f hf
  unfold chosenFiles at hf
  obtain ⟨nm, _, hfg⟩ := List.mem_flatMap.mp hf
  by_cases h : nm ∈ importedNms
  · rw [if_pos h] at hfg
    exact (componentVersions_spec files nm f
      (chooseVersion_subset _ _ f hfg)).1
  · rw [if_neg h] at hfg
    simp at hfg

theorem chosenFiles_paths_nodup (files : List GenFile)
    (importedNms : List String) :
    ((chosenFiles files importedNms).map GenFile.path).Nodup := by
  unfold chosenFiles
  apply nodup_flatMap_paths
  · exact dedupFirst_nodup _
  · intro nm
    by_cases h : nm ∈ importedNms
    · rw [if_pos h]
      exact chooseVersion_length_le _ _
    · rw [if_neg h]; simp
  · intro nm f hf
    by_cases h : nm ∈ importedNms
    · rw [if_pos h] at hf
      exact (componentVersions_spec files nm f
        (chooseVersion_subset _ _ f hf)).2
    · rw [if_neg h] at hf; simp at hf

theorem nonComponent_count (files : List GenFile) (p : String)
    (hp : isComponentPath p = false) :
    ((nonComponentFiles files).map GenFile.path).count p =
      (files.map GenFile.path).count p := by
  unfold nonComponentFiles
  induction files with
  | nil => simp
  | cons f rest ih =>
      rw [List.filter_cons]
      by_cases hf : isComponentPath f.path = true
      · have hne : f.path ≠ p := by
          intro hc
          rw [← hc, hf] at hp
          exact Bool.true_eq_false.mp hp
        rw [if_neg (by simp [hf]), List.map_cons, List.count_cons]
        simp only [ih, beq_iff_eq]
        rw [if_neg hne]
        omega
      · rw [if_pos (by simp [Bool.not_eq_true] at hf ⊢; exact hf)]
        rw [List.map_cons, List.map_cons, List.count_cons, List.count_cons, ih]

/-- C5 counterexample: two workers both emit the non-component file
`lib/utils.ts`; the final file list contains that path twice, refuting
"each artifact path appears at most once in the final file list". -/
theorem C5_final_paths_counterexample :
    ¬ ((finalFiles "PAGE"
        (stitchFiles [[("lib/utils.ts", "a")], [("lib/utils.ts", "b")]])
        []).map GenFile.path).Nodup := by decide

/-- C5 (amended): after stitching, collision resolution and composition
assembly, the composition path `app/page.tsx` and every chosen component-file
path appear exactly once among themselves; non-component files are passed
through without deduplication, so a non-component path keeps its full
multiplicity from the stitched list (emitted by k workers, it appears k
times). -/
theorem C5_final_paths (page : String)
    (agentResults : List (List (String × String)))
    (importedNms : List String) :
    ((GenFile.mk "app/page.tsx" page 0 ::
        chosenFiles (stitchFiles agentResults) importedNms).map
          GenFile.path).Nodup
    ∧ ∀ p, isComponentPath p = false → p ≠ "app/page.tsx" →
        ((finalFiles page (stitchFiles agentResults) importedNms).map
            GenFile.path).count p =
          ((stitchFiles agentResults).map GenFile.path).count p := by
  constructor
  · rw [List.map_cons, List.nodup_cons]
    refine ⟨?_, chosenFiles_paths_nodup _ _⟩
    intro hmem
    obtain ⟨f, hf, hfp⟩ := List.mem_map.mp hmem
    have h1 := chosenFiles_component _ _ f hf
    rw [hfp] at h1
    have h2 : isComponentPath "app/page.tsx" = false := by decide
    rw [h1] at h2
    exact Bool.true_eq_false.mp h2
  · intro p hp hpage
    unfold finalFiles
    rw [List.map_cons, List.count_cons, List.map_append, List.count_append]
    have h1 : List.count p (List.map GenFile.path
        (chosenFiles (stitchFiles agentResults) importedNms)) = 0 := by
      rw [List.count_eq_zero]
      intro hmem
      obtain ⟨f, hf, hfp⟩ := List.mem_map.mp hmem
      have := chosenFiles_component _ _ f hf
      rw [hfp] at this
      rw [this] at hp
      exact Bool.true_eq_false.mp hp
    rw [h1, nonComponent_count _ _ hp]
    simp only [beq_iff_eq]
    rw [if_neg (Ne.symm hpage)]
    omega

/-- C5 witness: `lib/utils.ts` is a non-component path distinct from the
page path, and its multiplicity in the final list equals its multiplicity in
the stitched list. -/
theorem C5_final_paths_witness :
    isComponentPath "lib/utils.ts" = false
    ∧ ((finalFiles "PAGE" (stitchFiles [[("lib/utils.ts", "x")]]) []).map
          GenFile.path).count "lib/utils.ts" =
        ((stitchFiles [[("lib/utils.ts", "x")]]).map GenFile.path).count
          "lib/utils.ts" :=
  ⟨by decide,
    (C5_final_paths "PAGE" [[("lib/utils.ts", "x")]] []).2 "lib/utils.ts"
      (by decide) (by decide)⟩

/-! ## Background pipeline cleanup (`clone.py`)

`_run_clone` (lines 301-542): acquire the global semaphore, run the pipeline
body to whatever stopping point it reaches, then a `finally` block releases
the slot, pops the client's in-flight marker and enqueues the `_done`
sentinel. -/

/-- An event on the session status queue: a status dict or the terminal
`{"_done": True}` sentinel. -/
inductive Event where
  | status (s : String)
  | sentinel
deriving DecidableEq

/-- Where the pipeline body of `_run_clone` stops. -/
inductive PipelineOutcome where
  | scrapeFail      -- scraping raised (lines 328-331)
  | genFail         -- AI generation raised (lines 382-386)
  | noFiles         -- AI returned no files (lines 393-396)
  | sandboxFail     -- sandbox not ready (lines 405-408)
  | devFail         -- dev server did not start (lines 426-429)
  | success         -- full pipeline, terminal done event (lines 525-533)
  | unhandled       -- any other exception (lines 535-537)
deriving DecidableEq

/-- The status events the body enqueues on each path, by their `status` field
(`_run_clone`-level puts; nested `on_status` progress events are further
status dicts and are elided -- no body path ever puts the sentinel). -/
def bodyEvents : PipelineOutcome → List Event
  | PipelineOutcome.scrapeFail =>
      [Event.status "scraping", Event.status "error"]
  | PipelineOutcome.genFail =>
      [Event.status "scraping", Event.status "screenshot",
        Event.status "generating", Event.status "error"]
  | PipelineOutcome.noFiles =>
      [Event.status "scraping", Event.status "screenshot",
        Event.status "generating", Event.status "error"]
  | PipelineOutcome.sandboxFail =>
      [Event.status "scraping", Event.status "screenshot",
        Event.status "generating", Event.status "deploying",
        Event.status "error"]
  | PipelineOutcome.devFail =>
      [Event.status "scraping", Event.status "screenshot",
        Event.status "generating", Event.status "deploying",
        Event.status "deploying", Event.status "error"]
  | PipelineOutcome.success =>
      [Event.status "scraping", Event.status "screenshot",
        Event.status "generating", Event.status "deploying",
        Event.status "deploying", Event.status "done"]
  | PipelineOutcome.unhandled => [Event.status "error"]

/-- Shared pipeline state: free semaphore slots, the keys of `_active_clones`,
and the session queue contents (oldest first). -/
structure PipelineState where
  semFree : Nat
  active : List String
  queue : List Event
deriving DecidableEq

/-- The `finally` block (lines 538-542): release the slot, pop the client
marker, enqueue the sentinel. -/
def finallyBlock (clientIp : String) (s : PipelineState) : PipelineState :=
  { semFree := s.semFree + 1
    active := s.active.erase clientIp
    queue := s.queue ++ [Event.sentinel] }

/-- Embeds `_run_clone` (lines 301-542): acquire, run the body to outcome `o`,
then the guaranteed `finally` block. -/
def runClone (clientIp : String) (o : PipelineOutcome)
    (s : PipelineState) : PipelineState :=
  finallyBlock clientIp
    { semFree := s.semFree - 1
      active := s.active
      queue := s.queue ++ bodyEvents o }

theorem bodyEvents_no_sentinel (o : PipelineOutcome) :
    Event.sentinel ∉ bodyEvents o := by
  cases o <;> decide

/-- C6: for every run of the background pipeline, regardless of where it
stops, the guaranteed cleanup path runs exactly once: the concurrency slot is
released (net semaphore change zero), the client's in-flight marker is removed
exactly once, and exactly one terminal sentinel is enqueued. -/
theorem C6_pipeline_cleanup (ip : String) (o : PipelineOutcome)
    (s : PipelineState) (hsem : 1 ≤ s.semFree) :
    (runClone ip o s).semFree = s.semFree
    ∧ (runClone ip o s).active = s.active.erase ip
    ∧ (runClone ip o s).active.count ip = s.active.count ip - 1
    ∧ (runClone ip o s).queue.count Event.sentinel =
        s.queue.count Event.sentinel + 1 := by
  refine ⟨by simp [runClone, finallyBlock]; omega,
    rfl, ?_, ?_⟩
  · show (s.active.erase ip).count ip = s.active.count ip - 1
    exact List.count_erase_self _ _
  · show ((s.queue ++ bodyEvents o) ++ [Event.sentinel]).count Event.sentinel
        = s.queue.count Event.sentinel + 1
    rw [List.count_append, List.count_append]
    have h1 : (bodyEvents o).count Event.sentinel = 0 :=
      List.count_eq_zero.mpr (bodyEvents_no_sentinel o)
    rw [h1]
    simp

/-- Witness for C6 at a concrete state with one free slot. -/
theorem C6_pipeline_cleanup_witness :
    1 ≤ (1 : Nat)
    ∧ (runClone "1.2.3.4" PipelineOutcome.success
        ⟨1, ["1.2.3.4"], []⟩).queue.count Event.sentinel =
      (List.count Event.sentinel ([] : List Event)) + 1 :=
  ⟨by decide,
    (C6_pipeline_cleanup "1.2.3.4" PipelineOutcome.success
      ⟨1, ["1.2.3.4"], []⟩ (by decide)).2.2.2⟩

/-! ## Generation worker retry and continuation (`ai_generator.py`)

`_run_section_agent` (lines 1052-1154): one retry after a short delay, empty
result instead of raising on repeated failure, one continuation call on a
length-truncated non-empty response, truncated output kept if the
continuation fails. -/

/-- One response from the generation service: content and whether
`finish_reason == "length"`. -/
structure GenResponse where
  content : String
  finishLength : Bool
deriving DecidableEq

/-- The external-call oracle for one worker: the first attempt, the retry
(consulted only after a first failure) and the continuation call (issued only
on a length-truncated non-empty response). `none` models a raised
exception. -/
structure CallOracle where
  first : Option GenResponse
  retry : Option GenResponse
  continuation : Option GenResponse
deriving DecidableEq

/-- The kinds of generation calls a worker can issue. -/
inductive CallKind where
  | initial
  | retryCall
  | continuationCall
deriving DecidableEq

/-- The continuation step (lines 1093-1119): on `finish_reason == "length"`
and non-empty output, issue exactly one continuation call; a non-empty
continuation is appended, an empty or failed one leaves the truncated
output. -/
def continuationStep (cont : Option GenResponse) (resp : GenResponse) :
    List CallKind × String :=
  if resp.finishLength && !(resp.content == "") then
    match cont with
    | none => ([CallKind.continuationCall], resp.content)
    | some c =>
        ([CallKind.continuationCall],
          if c.content = "" then resp.content
          else resp.content ++ c.content)
  else ([], resp.content)

/-- Embeds the retry loop and continuation of `_run_section_agent`
(lines 1057-1130): the calls issued, and the final `raw_output` handed to the
parser, `none` for the empty `{"files": [], "deps": []}` early return. -/
def runSectionAgent (o : CallOracle) : List CallKind × Option String :=
  match o.first with
  | some resp =>
      let c := continuationStep o.continuation resp
      (CallKind.initial :: c.1, if c.2 = "" then none else some c.2)
  | none =>
      match o.retry with
      | none => ([CallKind.initial, CallKind.retryCall], none)
      | some resp =>
          let c := continuationStep o.continuation resp
          (CallKind.initial :: CallKind.retryCall :: c.1,
            if c.2 = "" then none else some c.2)

/-- C7 counterexample: a first response marked `finish_reason == "length"`
but with empty content triggers no continuation call (the code also requires
non-empty output), so "exactly one continuation call" does not hold for every
length-marked response. -/
theorem C7_retry_continuation_counterexample :
    (runSectionAgent ⟨some ⟨"", true⟩, none, some ⟨"more", false⟩⟩).1.count
        CallKind.continuationCall = 0
    ∧ (runSectionAgent ⟨some ⟨"", true⟩, none, some ⟨"more", false⟩⟩).2
        = none := by decide

theorem continuationStep_calls (cont : Option GenResponse)
    (resp : GenResponse) :
    (continuationStep cont resp).1 = []
    ∨ (continuationStep cont resp).1 = [CallKind.continuationCall] := by
  unfold continuationStep
  split
  · rcases cont with _ | c
    · exact Or.inr rfl
    · exact Or.inr rfl
  · exact Or.inl rfl

theorem continuationStep_count_retry (cont : Option GenResponse)
    (resp : GenResponse) :
    (continuationStep cont resp).1.count CallKind.retryCall = 0 := by
  rcases continuationStep_calls cont resp with h | h <;> rw [h] <;> decide

theorem continuationStep_count_cont_pos (cont : Option GenResponse)
    (resp : GenResponse)
    (h : (resp.finishLength && !(resp.content == "")) = true) :
    (continuationStep cont resp).1.count CallKind.continuationCall = 1 := by
  unfold continuationStep
  rw [if_pos h]
  rcases cont with _ | c <;> simp

theorem continuationStep_nil_of_neg (cont : Option GenResponse)
    (resp : GenResponse)
    (h : ¬((resp.finishLength && !(resp.content == "")) = true)) :
    (continuationStep cont resp).1 = [] := by
  unfold continuationStep
  rw [if_neg h]

theorem string_append_ne_empty (s t : String) (h : s ≠ "") :
    s ++ t ≠ "" := by
  intro hc
  apply h
  have hd := congrArg String.data hc
  rw [String.data_append] at hd
  have h0 : s.data = [] := (List.append_eq_nil.mp hd).1
  cases s with
  | mk d => simp at h0; simp [h0]

/-- C7 (amended): a failed external generation call is retried exactly once,
and if the retry also fails the worker returns an empty result instead of
raising; when the first response is marked incomplete with finish reason
length and its content is non-empty, the worker issues exactly one
continuation call and appends its output, and a failed continuation falls
back to the truncated output rather than failing the worker. -/
theorem C7_retry_and_continuation (o : CallOracle) :
    (o.first = none → o.retry = none →
      runSectionAgent o = ([CallKind.initial, CallKind.retryCall], none))
    ∧ (o.first = none →
        (runSectionAgent o).1.count CallKind.retryCall = 1)
    ∧ (∀ resp, o.first = some resp →
        (runSectionAgent o).1.count CallKind.retryCall = 0)
    ∧ (∀ resp, o.first = some resp → resp.finishLength = true →
        resp.content ≠ "" →
        (runSectionAgent o).1.count CallKind.continuationCall = 1
        ∧ (o.continuation = none →
            (runSectionAgent o).2 = some resp.content)
        ∧ (∀ c, o.continuation = some c →
            (runSectionAgent o).2 = some (resp.content ++ c.content)
            ∨ (runSectionAgent o).2 = some resp.content))
    ∧ (∀ resp, o.first = some resp → resp.finishLength = false →
        (runSectionAgent o).1.count CallKind.continuationCall = 0) := by
  refine ⟨?_, ?_, ?_, ?_, ?_⟩
  · intro h1 h2
    simp [runSectionAgent, h1, h2]
  · intro h1
    rcases hr : o.retry with _ | resp
    · simp [runSectionAgent, h1, hr]
    · simp only [runSectionAgent, h1, hr]
      rw [List.count_cons, List.count_cons,
        continuationStep_count_retry o.continuation resp]
      decide
  · intro resp h1
    simp only [runSectionAgent, h1]
    rw [List.count_cons, continuationStep_count_retry o.continuation resp]
    decide
  · intro resp h1 hfin hne
    have hcond : (resp.finishLength && !(resp.content == "")) = true := by
      simp [hfin, hne]
    refine ⟨?_, ?_, ?_⟩
    · simp only [runSectionAgent, h1]
      rw [List.count_cons,
        continuationStep_count_cont_pos o.continuation resp hcond]
      decide
    · intro hcont
      simp only [runSectionAgent, h1]
      unfold continuationStep
      rw [if_pos hcond, hcont]
      simp [hne]
    · intro c hcont
      simp only [runSectionAgent, h1]
      unfold continuationStep
      rw [if_pos hcond, hcont]
      by_cases hc : c.content = ""
      · right
        simp [hc, hne]
      · left
        have hnn := string_append_ne_empty resp.content c.content hne
        simp [hc, hnn]
  · intro resp h1 hfin
    simp only [runSectionAgent, h1]
    rw [List.count_cons,
      continuationStep_nil_of_neg o.continuation resp (by simp [hfin])]
    decide

/-- Witness for C7 at the concrete double-failure oracle. -/
theorem C7_retry_and_continuation_witness :
    (⟨none, none, none⟩ : CallOracle).first = none
    ∧ runSectionAgent ⟨none, none, none⟩ =
        ([CallKind.initial, CallKind.retryCall], none) :=
  ⟨rfl, (C7_retry_and_continuation ⟨none, none, none⟩).1 rfl rfl⟩

/-! ## Self-healing reverse proxy (`clone.py`)

`proxy_sandbox` (lines 779-849) and `_recreate_sandbox` (lines 696-760). -/

/-- The interim auto-refreshing page; stands for the `LOADING_HTML` literal of
clone.py lines 143-217 (its exact markup is irrelevant to the claims). -/
def loadingHTML : String := "LOADING_HTML"

/-- The in-flight rewriting of absolute `/_next/` asset references to the
proxy prefix (lines 838-840 and 844-846): first the double-quoted form, then
the single-quoted form. -/
def rewriteNext (proxyBase : String) (body : String) : String :=
  String.mk (replaceChars ("\x27/_next/").toList
    (("\x27" ++ proxyBase ++ "/_next/").toList)
    (replaceChars ("\"/_next/").toList
      (("\"" ++ proxyBase ++ "/_next/").toList) body.toList))

/-- The upstream fetch result seen by the proxy: a transport failure
(`httpx` exception, lines 814-819) or a response with status, content type
and body. -/
inductive FetchResult where
  | transportError
  | response (status : Nat) (contentType : String) (body : String)
deriving DecidableEq

/-- What the proxy returns to the browser. -/
structure ProxyReply where
  status : Nat
  body : String
deriving DecidableEq

/-- State effects of one forwarded request: whether the handle was dropped
from `_sandbox_urls` and whether a recreation task was spawned. -/
structure ProxyEffects where
  droppedHandle : Bool
  spawnedRecreate : Bool
deriving DecidableEq

/-- Embeds the forwarding branch of `proxy_sandbox` (lines 811-849) for a
session with a live handle. `recreating` is `clone_id in _recreating`. A
transport failure or a 502/503/504 drops the handle, spawns recreation unless
one is already running, and returns the loading page (an `HTMLResponse` with
default status 200). HTML bodies are rewritten and keep the upstream status;
JavaScript bodies are rewritten but returned through a `Response` without a
`status_code` argument (so status 200); everything else passes through
unmodified with its status. -/
def proxyForward (proxyBase : String) (recreating : Bool) :
    FetchResult → ProxyReply × ProxyEffects
  | FetchResult.transportError =>
      (⟨200, loadingHTML⟩, ⟨true, !recreating⟩)
  | FetchResult.response status ct body =>
      if status = 502 ∨ status = 503 ∨ status = 504 then
        (⟨200, loadingHTML⟩, ⟨true, !recreating⟩)
      else if containsSub ct.toList "text/html" then
        (⟨status, rewriteNext proxyBase body⟩, ⟨false, false⟩)
      else if containsSub ct.toList "javascript" then
        (⟨200, rewriteNext proxyBase body⟩, ⟨false, false⟩)
      else
        (⟨status, body⟩, ⟨false, false⟩)

/-- C8 counterexample: an application-level 500 with a JavaScript content
type is returned with status 200, not its original status code, because the
JavaScript branch builds the `Response` without passing `resp.status_code`. -/
theorem C8_proxy_passthrough_counterexample :
    (proxyForward "/api/sandbox/abc" false
        (FetchResult.response 500 "application/javascript" "x")).1.status
      = 200
    ∧ (proxyForward "/api/sandbox/abc" false
        (FetchResult.response 500 "text/html" "x")).1.status = 500 := by
  constructor
  · rfl
  · rfl

/-- C8 (amended): for every proxied request with a live handle, a transport
failure or a gateway-class status (502, 503, 504) drops the handle, triggers
recreation unless one is in flight, and returns the interim loading page with
status 200 — never the raw 5xx; any other status is passed through: HTML with
rewritten body and its original status, other content types unmodified with
their original status, but JavaScript with rewritten body and status 200. -/
theorem C8_proxy_forward (proxyBase : String) (recreating : Bool)
    (status : Nat) (ct body : String) :
    (proxyForward proxyBase recreating FetchResult.transportError =
      (⟨200, loadingHTML⟩, ⟨true, !recreating⟩))
    ∧ (status = 502 ∨ status = 503 ∨ status = 504 →
        proxyForward proxyBase recreating
            (FetchResult.response status ct body) =
          (⟨200, loadingHTML⟩, ⟨true, !recreating⟩))
    ∧ (¬(status = 502 ∨ status = 503 ∨ status = 504) →
        (containsSub ct.toList "text/html" = true →
          proxyForward proxyBase recreating
              (FetchResult.response status ct body) =
            (⟨status, rewriteNext proxyBase body⟩, ⟨false, false⟩))
        ∧ (containsSub ct.toList "text/html" = false →
            containsSub ct.toList "javascript" = true →
            proxyForward proxyBase recreating
                (FetchResult.response status ct body) =
              (⟨200, rewriteNext proxyBase body⟩, ⟨false, false⟩))
        ∧ (containsSub ct.toList "text/html" = false →
            containsSub ct.toList "javascript" = false →
            proxyForward proxyBase recreating
                (FetchResult.response status ct body) =
              (⟨status, body⟩, ⟨false, false⟩))) := by
  refine ⟨rfl, ?_, ?_⟩
  · intro h
    simp [proxyForward, h]
  · intro h
    refine ⟨?_, ?_, ?_⟩
    · intro hhtml
      simp only [String.toList] at hhtml
      simp [proxyForward, h, hhtml]
    · intro hhtml hjs
      simp only [String.toList] at hhtml hjs
      simp [proxyForward, h, hhtml, hjs]
    · intro hhtml hjs
      simp only [String.toList] at hhtml hjs
      simp [proxyForward, h, hhtml, hjs]

/-- Witness for C8 at a concrete gateway failure. -/
theorem C8_proxy_forward_witness :
    ((502 : Nat) = 502 ∨ (502 : Nat) = 503 ∨ (502 : Nat) = 504)
    ∧ proxyForward "/p" false (FetchResult.response 502 "text/html" "b") =
        (⟨200, loadingHTML⟩, ⟨true, true⟩) :=
  ⟨Or.inl rfl,
    (C8_proxy_forward "/p" false 502 "text/html" "b").2.1 (Or.inl rfl)⟩

/-! ## Staleness gate and recreation guard (`clone.py`)

The staleness check of `proxy_sandbox` (lines 786-805), the per-id guard at
the top of `_recreate_sandbox` (lines 698-700) and its `finally` (line 760). -/

/-- `SANDBOX_MAX_AGE = 600` (line 136). -/
def sandboxMaxAge : Nat := 600

/-- Per-session proxy-visible state before the fetch. -/
structure SessionView where
  entry : Option Nat          -- creation timestamp of the recorded handle
  recreationFailed : Bool     -- clone_id ∈ _recreation_failed
  recreating : Bool           -- clone_id ∈ _recreating
deriving DecidableEq

/-- What the gate decides for one request. -/
inductive GateDecision where
  | terminalFailure           -- the 404 cannot-recreate page (lines 798-802)
  | interim (spawned : Bool)  -- loading page; recreation spawned or not
  | forward                   -- fall through to the fetch (lines 807 ff.)
deriving DecidableEq

/-- The no-live-handle branch of the gate (lines 797-805): a permanently
failed id gets the terminal page; otherwise a recreation task is spawned
unless the id is already recreating, and the interim page is returned. -/
def gateNoEntry (v : SessionView) : GateDecision × Option Nat :=
  if v.recreationFailed then (GateDecision.terminalFailure, none)
  else (GateDecision.interim (!v.recreating), none)

/-- Embeds the gate of `proxy_sandbox` (lines 786-805): a handle older than
`SANDBOX_MAX_AGE` is dropped and the request is treated as having no handle;
otherwise the request falls through to the fetch. Returns the decision and
the surviving entry. -/
def proxyGate (v : SessionView) (now : Nat) : GateDecision × Option Nat :=
  match v.entry with
  | some created =>
      if now - created > sandboxMaxAge then gateNoEntry v
      else (GateDecision.forward, some created)
  | none => gateNoEntry v

/-- The `_recreating` guard protocol of `_recreate_sandbox`: `flag` is
`clone_id ∈ _recreating`, `running` counts recreation bodies currently
executing between the guard and the `finally`. -/
structure RecreateState where
  flag : Bool
  running : Nat
deriving DecidableEq

/-- Scheduler steps: a spawned task reaches the guard (lines 698-700: return
if the flag is set, else set it and run — no await separates the check from
the set, so the pair is atomic under cooperative scheduling), or a running
body reaches its `finally` (line 760: clear the flag). -/
inductive RecreateStep where
  | enter
  | finish
deriving DecidableEq

/-- The transition function of the guard protocol. -/
def recreateStep (s : RecreateState) : RecreateStep → RecreateState
  | RecreateStep.enter =>
      if s.flag then s else ⟨true, s.running + 1⟩
  | RecreateStep.finish =>
      if s.running = 0 then s else ⟨false, s.running - 1⟩

/-- The guard invariant: at most one recreation body runs at a time, and a
running body implies the flag is set. -/
def RecreateInv (s : RecreateState) : Prop :=
  s.running ≤ 1 ∧ (s.running = 1 → s.flag = true)

theorem recreateStep_inv (s : RecreateState) (st : RecreateStep)
    (h : RecreateInv s) : RecreateInv (recreateStep s st) := by
  rcases h with ⟨h1, h2⟩
  cases st with
  | enter =>
      simp only [recreateStep]
      split_ifs with hf
      · exact ⟨h1, h2⟩
      · have h0 : s.running = 0 := by
          by_cases h3 : s.running = 1
          · exact absurd (h2 h3) hf
          · omega
        refine ⟨by simp [RecreateInv, h0], fun _ => rfl⟩
  | finish =>
      simp only [recreateStep]
      split_ifs with hr
      · exact ⟨h1, h2⟩
      · constructor
        · show s.running - 1 ≤ 1
          omega
        · intro hx
          exfalso
          have hx2 : s.running - 1 = 1 := hx
          omega

theorem recreate_inv_foldl (steps : List RecreateStep) :
    RecreateInv (steps.foldl recreateStep ⟨false, 0⟩) := by
  have h : ∀ (s : RecreateState), RecreateInv s →
      RecreateInv (steps.foldl recreateStep s) := by
    induction steps with
    | nil => intro s hs; exact hs
    | cons st rest ih =>
        intro s hs
        exact ih _ (recreateStep_inv s st hs)
  exact h ⟨false, 0⟩ ⟨by decide, by decide⟩

/-- C9: a handle older than the 600-second max age is dropped and treated as
dead; the dropped-handle request gets the interim page (or the terminal page
for a permanently failed id); under any interleaving of task entries and
completions, at most one recreation body executes concurrently per id; and in
the concrete scenario of a 700-second-old handle against max age 600, three
requests arriving at the same instant each receive the interim page. -/
theorem C9_stale_recreation (v : SessionView) (now created : Nat)
    (hentry : v.entry = some created)
    (hstale : now - created > sandboxMaxAge) :
    ((proxyGate v now).2 = none
      ∧ (v.recreationFailed = true →
          (proxyGate v now).1 = GateDecision.terminalFailure)
      ∧ (v.recreationFailed = false →
          (proxyGate v now).1 = GateDecision.interim (!v.recreating)))
    ∧ (∀ steps : List RecreateStep,
        (steps.foldl recreateStep ⟨false, 0⟩).running ≤ 1)
    ∧ (proxyGate ⟨some 0, false, false⟩ 700 =
          (GateDecision.interim true, none)
        ∧ proxyGate ⟨some 0, false, true⟩ 700 =
          (GateDecision.interim false, none)
        ∧ proxyGate ⟨some 0, true, false⟩ 700 =
          (GateDecision.terminalFailure, none)) := by
  refine ⟨?_, fun steps => (recreate_inv_foldl steps).1, by decide, by decide,
    by decide⟩
  have he : proxyGate v now = gateNoEntry v := by
    unfold proxyGate
    rw [hentry]
    simp only [if_pos hstale]
  rw [he]
  unfold gateNoEntry
  refine ⟨?_, ?_, ?_⟩
  · split_ifs <;> rfl
  · intro hf
    rw [if_pos (by simp [hf])]
  · intro hf
    rw [if_neg (by simp [hf])]

/-- Witness for C9 at the concrete 700-second-old entry. -/
theorem C9_stale_recreation_witness :
    (⟨some 0, false, false⟩ : SessionView).entry = some 0
    ∧ 700 - 0 > sandboxMaxAge
    ∧ (proxyGate ⟨some 0, false, false⟩ 700).2 = none :=
  ⟨rfl, by decide,
    (C9_stale_recreation ⟨some 0, false, false⟩ 700 0 rfl (by decide)).1.1⟩

/-! ## Output cleaning and multi-file parsing (`ai_generator.py`)

`_clean_code` (lines 475-527), `_fix_missing_imports` (lines 530-604) and
`parse_multi_file_output` (lines 609-657), embedded over character lists;
regular expressions are modelled by explicit scanners. -/

/-- The single-quote character. -/
def squote : Char := Char.ofNat 39

/-- The opening-brace character. -/
def openBrace : Char := Char.ofNat 123

/-- The closing-brace character. -/
def closeBrace : Char := Char.ofNat 125

/-- Python `\s` on ASCII text. -/
def isSpaceChar (c : Char) : Bool :=
  c == ' ' || c == '\n' || c == '\t' || c == '\r'
    || c == Char.ofNat 11 || c == Char.ofNat 12

/-- Strip trailing characters satisfying `p`. -/
def dropTrailingWhile (p : Char → Bool) (l : List Char) : List Char :=
  (l.reverse.dropWhile p).reverse

/-- Python `str.strip()` on ASCII whitespace. -/
def pyStrip (l : List Char) : List Char :=
  dropTrailingWhile isSpaceChar (l.dropWhile isSpaceChar)

/-- A literal: `lit pat l = some (pat, rest)` iff `pat` is a prefix of `l`. -/
def lit (pat : List Char) (l : List Char) :
    Option (List Char × List Char) :=
  if isPrefixOfChars pat l then some (pat, l.drop pat.length) else none

/-- `\s+`: one or more whitespace characters, returned with the rest. -/
def spaces1 (l : List Char) : Option (List Char × List Char) :=
  let w := l.takeWhile isSpaceChar
  if w.isEmpty then none else some (w, l.dropWhile isSpaceChar)

/-- Substring test on character lists. -/
def isInfixOfChars (pat : List Char) : List Char → Bool
  | [] => pat.isEmpty
  | c :: rest => isPrefixOfChars pat (c :: rest) || isInfixOfChars pat rest

/-- Line splitting, Python `str.split("\n")`. -/
def splitLines (l : List Char) : List (List Char) := l.splitOn '\n'

/-- Rejoin lines, Python `"\n".join(...)`. -/
def joinLines (ls : List (List Char)) : List Char :=
  List.intercalate ['\n'] ls

/-- The language tags of the fence-stripping regex (line 480), in regex
alternation order. -/
def fenceLangs : List String := ["tsx", "typescript", "jsx", "ts", "javascript"]

/-- Line-based model of the fence-stripping substitutions (lines 480-481): a
line that is a fence marker with an optional language tag and trailing
whitespace is removed. -/
def isFenceLine (ln : List Char) : Bool :=
  match lit "```".toList ln with
  | none => false
  | some (_, rest) =>
      let rest2 :=
        match fenceLangs.findSome? (fun lang =>
          match lit lang.toList rest with
          | some (_, r) => some r
          | none => none) with
        | some r => r
        | none => rest
      rest2.all isSpaceChar

/-- The fence-stripping passes (lines 480-481). -/
def stripFences (l : List Char) : List Char :=
  joinLines ((splitLines l).filter (fun ln => !isFenceLine ln))

/-- The double-quoted directive. -/
def dqDirective : String := "\"use client\""

/-- The single-quoted directive. -/
def sqDirective : String :=
  String.mk (squote :: ("use client".toList ++ [squote]))

/-- Does a line start like code (line 485): `"use client"`, `'use client'`
or `import `? -/
def codeLineStart (ln : List Char) : Bool :=
  isPrefixOfChars dqDirective.toList ln
    || isPrefixOfChars sqDirective.toList ln
    || isPrefixOfChars "import ".toList ln

/-- The preamble strip (lines 485-488): if the content does not already start
like code, drop everything before the first line that does; no such line
leaves the content unchanged. -/
def stripPreamble (l : List Char) : List Char :=
  if codeLineStart l then l
  else
    let rest := (splitLines l).dropWhile (fun ln => !codeLineStart ln)
    if rest.isEmpty then l else joinLines rest

/-- The smart-quote normalisation (lines 491-492). -/
def smartQuoteFix (c : Char) : Char :=
  if c == Char.ofNat 0x201c || c == Char.ofNat 0x201d then '"'
  else if c == Char.ofNat 0x2018 || c == Char.ofNat 0x2019 then squote
  else c

/-- The invisible characters removed at lines 493-494. -/
def isInvisibleChar (c : Char) : Bool :=
  c == Char.ofNat 0x200b || c == Char.ofNat 0x200c
    || c == Char.ofNat 0x200d || c == Char.ofNat 0xfeff
    || c == Char.ofNat 0xa0

/-- ASCII lower-case letter. -/
def isLowerAlpha (c : Char) : Bool := 97 ≤ c.toNat && c.toNat ≤ 122

/-- ASCII digit. -/
def isDigitChar (c : Char) : Bool := 48 ≤ c.toNat && c.toNat ≤ 57

/-- ASCII upper-case letter. -/
def isUpperAlpha (c : Char) : Bool := 65 ≤ c.toNat && c.toNat ≤ 90

/-- `[a-zA-Z0-9]`. -/
def isAlnumChar (c : Char) : Bool :=
  isUpperAlpha c || isLowerAlpha c || isDigitChar c

/-- Python `\w` on ASCII text. -/
def isWordChar (c : Char) : Bool := isAlnumChar c || c == '_'

/-- Split `value` + `"` + `,?` + whitespace off the tail of a property line
(the `"(.+)"(,?\s*)$` part of the regex at line 505). -/
def splitValueQuote (l : List Char) : Option (List Char × List Char) :=
  let r := l.reverse
  let ws := r.takeWhile isSpaceChar
  let r1 := r.drop ws.length
  let comma : List Char × List Char :=
    match r1 with
    | c :: rest => if c == ',' then ([c], rest) else ([], r1)
    | [] => ([], r1)
  match comma.2 with
  | q :: rest =>
      if q == '"' then some (rest.reverse, comma.1 ++ ws.reverse)
      else none
  | [] => none

/-- The property-line match `^(\w+\s*[:=]\s*)"(.+)"(,?\s*)$` (line 505):
returns (key part, value, trailing). -/
def parsePropLine (l : List Char) :
    Option (List Char × List Char × List Char) :=
  let word := l.takeWhile isWordChar
  if word.isEmpty then none
  else
    let l1 := l.drop word.length
    let w1 := l1.takeWhile isSpaceChar
    let l2 := l1.drop w1.length
    match l2 with
    | c :: l3 =>
        if c == ':' || c == '=' then
          let w2 := l3.takeWhile isSpaceChar
          let l4 := l3.drop w2.length
          match l4 with
          | q :: l5 =>
              if q == '"' then
                match splitValueQuote l5 with
                | some (value, trailing) =>
                    if value.isEmpty then none
                    else some (word ++ w1 ++ [c] ++ w2, value, trailing)
                | none => none
              else none
          | [] => none
        else none
    | [] => none

/-- The per-line nested-quote fix (lines 500-516). -/
def fixLineQuotes (line : List Char) : List Char :=
  let stripped := line.dropWhile isSpaceChar
  let indent := line.take (line.length - stripped.length)
  match parsePropLine stripped with
  | some (key, value, trailing) =>
      if value.contains '"' then
        indent ++ key ++ ['"']
          ++ value.map (fun c => if c == '"' then squote else c)
          ++ ['"'] ++ trailing
      else line
  | none => line

/-- The fence, preamble, smart-quote, invisible-character and nested-quote
passes of `_clean_code` (lines 477-518). -/
def preCleanChars (content : List Char) : List Char :=
  let s1 := pyStrip content
  let s2 := pyStrip (stripFences s1)
  let s3 := stripPreamble s2
  let s4 := (s3.map smartQuoteFix).filter (fun c => !isInvisibleChar c)
  let s5 := joinLines ((splitLines s4).map fixLineQuotes)
  pyStrip s5

/-- Does the content contain either quoted form of the directive
(line 521)? -/
def hasDirective (l : List Char) : Bool :=
  isInfixOfChars dqDirective.toList l || isInfixOfChars sqDirective.toList l

/-- The directive guarantee of `_clean_code` (lines 520-522): prepend
`"use client";\n` when neither quoted form is present. -/
def ensureUseClient (l : List Char) : List Char :=
  if hasDirective l then l else ("\"use client\";\n").toList ++ l

/-- Is `c` a JSX tag terminator (`[\s/>]`)? -/
def tagTerminator (c : Char) : Bool := isSpaceChar c || c == '/' || c == '>'

/-- A JSX tag match `<([A-Z][a-zA-Z0-9]+)[\s/>]` starting here (line 532). -/
def jsxTagAt (l : List Char) : Option (List Char) :=
  match l with
  | '<' :: c :: rest =>
      if isUpperAlpha c then
        let body := rest.takeWhile isAlnumChar
        if body.isEmpty then none
        else
          match rest.drop body.length with
          | t :: _ => if tagTerminator t then some (c :: body) else none
          | [] => none
      else none
  | _ => none

/-- All JSX tag names in the content (the `jsx_tags` set, line 532). -/
def jsxTags : List Char → List (List Char)
  | [] => []
  | c :: rest =>
      match jsxTagAt (c :: rest) with
      | some tag => tag :: jsxTags rest
      | none => jsxTags rest

/-- Take the characters before the first occurrence of `pat`
(`.split(' as ')[0]`). -/
def takeUntilSub (pat : List Char) : List Char → List Char
  | [] => []
  | c :: rest =>
      if isPrefixOfChars pat (c :: rest) then []
      else c :: takeUntilSub pat rest

/-- One entry of a brace import list:
`n.strip().split(' as ')[0].strip()` (line 536). -/
def importEntryName (n : List Char) : List Char :=
  pyStrip (takeUntilSub " as ".toList (pyStrip n))

/-- A quote character (`['"]`). -/
def quoteChar (l : List Char) : Option (Char × List Char) :=
  match l with
  | c :: rest =>
      if c == '"' || c == squote then some (c, rest) else none
  | [] => none

/-- A brace-import match
`import\s+\{([^}]+)\}\s+from\s+['"]([^'"]+)['"]` starting here (line 535):
the names it imports. -/
def importBraceAt (l : List Char) : Option (List (List Char)) := do
  let (_, l1) ← lit "import".toList l
  let (_, l2) ← spaces1 l1
  match l2 with
  | c :: l3 =>
      if c == openBrace then
        let inside := l3.takeWhile (fun d => !(d == closeBrace))
        if inside.isEmpty then none
        else
          let l4 := l3.drop inside.length
          match l4 with
          | d :: l5 =>
              if d == closeBrace then do
                let (_, l6) ← spaces1 l5
                let (_, l7) ← lit "from".toList l6
                let (_, l8) ← spaces1 l7
                let (_, l9) ← quoteChar l8
                let modname := l9.takeWhile
                  (fun e => !(e == '"' || e == squote))
                if modname.isEmpty then none
                else
                  match quoteChar (l9.drop modname.length) with
                  | some _ =>
                      some ((inside.splitOn ',').map importEntryName)
                  | none => none
              else none
          | [] => none
      else none
  | [] => none

/-- A default-import match `import\s+(\w+)\s+from\s+['"]` starting here
(line 538): the imported name. -/
def importDefaultAt (l : List Char) : Option (List Char) := do
  let (_, l1) ← lit "import".toList l
  let (_, l2) ← spaces1 l1
  let word := l2.takeWhile isWordChar
  if word.isEmpty then none
  else do
    let l3 := l2.drop word.length
    let (_, l4) ← spaces1 l3
    let (_, l5) ← lit "from".toList l4
    let (_, l6) ← spaces1 l5
    match quoteChar l6 with
    | some _ => some word
    | none => none

/-- The `imported` name collection (lines 534-539). -/
def importedNamesIn : List Char → List (List Char)
  | [] => []
  | c :: rest =>
      ((match importBraceAt (c :: rest) with
        | some ns => ns
        | none => []) ++
       (match importDefaultAt (c :: rest) with
        | some n => [n]
        | none => []))
      ++ importedNamesIn rest

/-- The `lucide_icons` set (lines 541-574). -/
def lucideIcons : List String :=
  ["Star", "ChevronDown", "ChevronUp", "ChevronRight", "ChevronLeft", 
   "Menu", "X", "Search", "ArrowRight", "ArrowLeft", "ExternalLink", 
   "Check", "Copy", "Eye", "EyeOff", "Heart", "ThumbsUp", "Share2", 
   "Github", "Twitter", "Linkedin", "Facebook", "Instagram", "Youtube", 
   "Mail", "Phone", "MapPin", "Calendar", "Clock", "User", "Users", 
   "Settings", "Home", "FileText", "Folder", "Download", "Upload", "Plus", 
   "Minus", "Edit", "Trash2", "Shield", "Lock", "Unlock", "Globe", "Zap", 
   "Award", "TrendingUp", "BarChart", "PieChart", "Code", "Terminal", 
   "GitBranch", "GitCommit", "GitPullRequest", "GitMerge", "GitFork", 
   "BookOpen", "Book", "Bookmark", "Tag", "Hash", "AtSign", "Bell", 
   "AlertCircle", "AlertTriangle", "Info", "HelpCircle", "MessageCircle", 
   "MessageSquare", "Send", "Paperclip", "Image", "Camera", "Video", 
   "Music", "Headphones", "Mic", "Volume2", "Play", "Pause", "SkipForward", 
   "SkipBack", "Repeat", "Shuffle", "Maximize2", "Minimize2", 
   "MoreHorizontal", "MoreVertical", "Grid", "List", "Layout", "Sidebar", 
   "Columns", "Layers", "Box", "Package", "Cpu", "Database", "Server", 
   "Cloud", "Wifi", "Bluetooth", "Monitor", "Smartphone", "Tablet", 
   "Watch", "Printer", "Speaker", "Sun", "Moon", "CloudRain", "Wind", 
   "Droplet", "Thermometer", "Rocket", "Sparkles", "Flame", "Target", 
   "Crosshair", "Navigation", "Compass", "Map", "Flag", "Anchor", 
   "Briefcase", "DollarSign", "CreditCard", "ShoppingCart", "ShoppingBag", 
   "Gift", "Percent", "Activity", "Aperture", "Battery", "BatteryCharging", 
   "Feather", "Filter", "Key", "Link", "Loader", "LogIn", "LogOut", 
   "Power", "RefreshCw", "RotateCw", "Save", "Scissors", "Slash", "Tool", 
   "Type", "Underline", "Bold", "Italic", "AlignLeft", "AlignCenter", 
   "AlignRight", "AlignJustify", "CircleDot", "Circle", "Square", 
   "Triangle", "Hexagon", "Octagon", "Pentagon", "Diamond", "FileCode", 
   "FileCode2", "Files", "FolderOpen", "FolderGit2", "ChevronDownIcon", 
   "StarIcon", "CheckCircle", "CheckCircle2", "XCircle", "MinusCircle", 
   "PlusCircle", "ArrowUpRight", "ArrowDownRight", "MoveRight", 
   "Lightbulb", "Wand2"]

/-- Lexicographic order on names (Python `sorted`). -/
def charListLe : List Char → List Char → Bool
  | [], _ => true
  | _ :: _, [] => false
  | a :: as, b :: bs =>
      if a == b then charListLe as bs else decide (a < b)

/-- Insertion into a sorted list of names. -/
def insertSorted (x : List Char) :
    List (List Char) → List (List Char)
  | [] => [x]
  | y :: ys =>
      if charListLe x y then x :: y :: ys else y :: insertSorted x ys

/-- Sorting a list of names (Python `sorted`). -/
def sortNames (l : List (List Char)) : List (List Char) :=
  l.foldr insertSorted []

/-- First-occurrence dedup for char-list names (`jsx_tags` is a set). -/
def dedupNamesAux : List (List Char) → List (List Char) → List (List Char)
  | [], _ => []
  | x :: xs, seen =>
      if seen.contains x then dedupNamesAux xs seen
      else x :: dedupNamesAux xs (x :: seen)

/-- The distinct JSX tag names. -/
def dedupNames (xs : List (List Char)) : List (List Char) :=
  dedupNamesAux xs []

/-- `missing_lucide` (line 576), sorted as at lines 581, 591 and 596. -/
def missingLucide (content : List Char) : List (List Char) :=
  let imported := importedNamesIn content
  sortNames ((dedupNames (jsxTags content)).filter (fun tag =>
    !(imported.contains tag) && lucideIcons.contains (String.mk tag)))

/-- One expected literal character. -/
def expectChar (c : Char) (l : List Char) : Option (List Char) :=
  match l with
  | d :: rest => if d == c then some rest else none
  | [] => none

/-- An optional semicolon (`;?`): (consumed, rest). -/
def optSemi (l : List Char) : List Char × List Char :=
  match l with
  | d :: l8 => if d == ';' then ([d], l8) else ([], l)
  | [] => ([], l)

/-- The tail `\}\s+from\s+['"]lucide-react['"];?` of the lucide-import regex
(line 585): (consumed text, rest). -/
def parseLucideTail (l : List Char) :
    Option (List Char × List Char) := do
  let l1 ← expectChar closeBrace l
  let (w1, l2) ← spaces1 l1
  let (f, l3) ← lit "from".toList l2
  let (w2, l4) ← spaces1 l3
  let (q1, l5) ← quoteChar l4
  let (lr, l6) ← lit "lucide-react".toList l5
  let (q2, l7) ← quoteChar l6
  let s := optSemi l7
  pure (closeBrace :: (w1 ++ f ++ w2 ++ q1 :: (lr ++ [q2] ++ s.1)), s.2)

/-- A lucide-import match `(import\s+\{)([^}]+)(\}\s+from\s+...)` starting
here: (g1, g2, g3, rest). -/
def matchLucideAt (l : List Char) :
    Option (List Char × List Char × List Char × List Char) := do
  let (im, l1) ← lit "import".toList l
  let (w1, l2) ← spaces1 l1
  let l3 ← expectChar openBrace l2
  let g2 := l3.takeWhile (fun d => !(d == closeBrace))
  if g2.isEmpty then none
  else do
    let (g3, tail) ← parseLucideTail (l3.drop g2.length)
    pure (im ++ w1 ++ [openBrace], g2, g3, tail)

/-- Earliest lucide-import match (`re.search`, line 584):
(pre, g1, g2, g3, rest). -/
def findLucide : List Char →
    Option (List Char × List Char × List Char × List Char × List Char)
  | [] => none
  | c :: rest =>
      match matchLucideAt (c :: rest) with
      | some (g1, g2, g3, tail) => some ([], g1, g2, g3, tail)
      | none =>
          match findLucide rest with
          | some (pre, g1, g2, g3, tail) =>
              some (c :: pre, g1, g2, g3, tail)
          | none => none

/-- Split a whitespace run after its last newline. -/
def splitAfterLastNewline (w : List Char) :
    Option (List Char × List Char) :=
  match w with
  | [] => none
  | c :: rest =>
      match splitAfterLastNewline rest with
      | some (w1, w2) => some (c :: w1, w2)
      | none => if c == '\n' then some ([c], rest) else none

/-- A match of `("use client";?\s*\n)` starting here (line 598):
(matched text, rest). -/
def matchDirectiveAt (l : List Char) :
    Option (List Char × List Char) := do
  let (d, l1) ← lit dqDirective.toList l
  let s := optSemi l1
  let w := s.2.takeWhile isSpaceChar
  let l3 := s.2.drop w.length
  match splitAfterLastNewline w with
  | some (w1, w2) => pure (d ++ s.1 ++ w1, w2 ++ l3)
  | none => none

/-- Earliest match of the directive-line pattern (`re.sub` with count 1):
(pre, matched, rest). -/
def findDirective : List Char →
    Option (List Char × List Char × List Char)
  | [] => none
  | c :: rest =>
      match matchDirectiveAt (c :: rest) with
      | some (m, tail) => some ([], m, tail)
      | none =>
          match findDirective rest with
          | some (pre, m, tail) => some (c :: pre, m, tail)
          | none => none

/-- `", ".join(names)`. -/
def joinNames (names : List (List Char)) : List Char :=
  List.intercalate (", ".toList) names

/-- The rebuilt lucide import (lines 589-594): `g1 + ' ' + existing + ', ' +
joined missing + ' ' + g3` with `existing = g2.strip().rstrip(',')`. -/
def extendLucideImport (pre g1 g2 g3 tail : List Char)
    (missing : List (List Char)) : List Char :=
  pre ++ g1 ++ [' ']
    ++ dropTrailingWhile (fun c => c == ',') (pyStrip g2)
    ++ ", ".toList ++ joinNames missing
    ++ [' '] ++ g3 ++ tail

/-- The fresh import line (line 596):
`import { names } from "lucide-react";\n`. -/
def lucideImportLine (missing : List (List Char)) : List Char :=
  "import ".toList ++ [openBrace, ' '] ++ joinNames missing
    ++ [' ', closeBrace] ++ (" from \"lucide-react\";\n").toList

/-- Embeds `_fix_missing_imports` (lines 530-604). -/
def fixMissingImports (content : List Char) : List Char :=
  if (missingLucide content).isEmpty then content
  else
    match findLucide content with
    | some (pre, g1, g2, g3, tail) =>
        extendLucideImport pre g1 g2 g3 tail (missingLucide content)
    | none =>
        match findDirective content with
        | some (pre, m, tail) =>
            pre ++ m ++ lucideImportLine (missingLucide content) ++ tail
        | none => content

/-- Embeds `_clean_code` (lines 475-527). -/
def cleanCode (content : List Char) : List Char :=
  fixMissingImports (ensureUseClient (preCleanChars content))

/-- Embeds the per-file assembly of `parse_multi_file_output`
(lines 630-641) given the delimiter segmentation (the
`// === FILE: path ===` matches): each segment is cleaned and kept when
non-empty. -/
def parseFilesFromSegments (segments : List (String × List Char)) :
    List (String × List Char) :=
  segments.filterMap (fun s =>
    if (cleanCode s.2).isEmpty then none else some (s.1, cleanCode s.2))

/-- Embeds the no-delimiter branch of `parse_multi_file_output`
(lines 643-657): the whole output is cleaned and becomes one record (an
inferred component path or `app/page.tsx`); an empty cleaning result yields
no file records. -/
def parseNoDelimiter (raw : List Char) (inferredPath : String) :
    List (String × List Char) :=
  if (cleanCode raw).isEmpty then []
  else [(inferredPath, cleanCode raw)]

/-! ### Prefix and infix bridging lemmas -/

theorem isPrefixOfChars_iff (pat l : List Char) :
    isPrefixOfChars pat l = true ↔ pat <+: l := by
  induction pat generalizing l with
  | nil => simp [isPrefixOfChars, List.nil_prefix]
  | cons a as ih =>
      cases l with
      | nil => simp [isPrefixOfChars]
      | cons b bs =>
          rw [isPrefixOfChars]
          simp only [Bool.and_eq_true, beq_iff_eq, ih bs,
            List.cons_prefix_cons]

theorem isPrefixOfChars_append_drop {pat l : List Char}
    (h : isPrefixOfChars pat l = true) : l = pat ++ l.drop pat.length := by
  obtain ⟨t, ht⟩ := (isPrefixOfChars_iff pat l).mp h
  subst ht
  simp

theorem isPrefixOfChars_self_append (pat x : List Char) :
    isPrefixOfChars pat (pat ++ x) = true :=
  (isPrefixOfChars_iff _ _).mpr (List.prefix_append pat x)

theorem isInfixOfChars_iff (pat l : List Char) :
    isInfixOfChars pat l = true ↔ pat <:+: l := by
  induction l with
  | nil =>
      rw [isInfixOfChars]
      cases pat with
      | nil => simp
      | cons a as => simp
  | cons c rest ih =>
      rw [isInfixOfChars]
      simp only [Bool.or_eq_true, isPrefixOfChars_iff, ih]
      constructor
      · rintro (h | h)
        · exact h.isInfix
        · exact h.trans (List.suffix_cons c rest).isInfix
      · intro h
        rcases List.infix_cons_iff.mp h with h | h
        · exact Or.inl h
        · exact Or.inr h

theorem hasDirective_ne_nil {l : List Char} (h : hasDirective l = true) :
    l ≠ [] := by
  unfold hasDirective at h
  rcases Bool.or_eq_true_iff.mp h with h | h <;>
    [have h2 := (isInfixOfChars_iff _ _).mp h;
     have h2 := (isInfixOfChars_iff _ _).mp h] <;>
  · intro hc
    subst hc
    have h3 := h2.length_le
    simp at h3
    revert h3
    decide

theorem ensureUseClient_hasDirective (l : List Char) :
    hasDirective (ensureUseClient l) = true := by
  unfold ensureUseClient
  split_ifs with h
  · exact h
  · unfold hasDirective
    have he : ("\"use client\";\n").toList =
        dqDirective.toList ++ (";\n").toList := by decide
    rw [he, List.append_assoc]
    have h1 : isInfixOfChars dqDirective.toList
        (dqDirective.toList ++ ((";\n").toList ++ l)) = true := by
      rw [isInfixOfChars_iff]
      exact (List.prefix_append _ _).isInfix
    rw [h1, Bool.true_or]

/-! ### Scanner inversion lemmas -/

theorem lit_spec {pat l c r : List Char}
    (h : lit pat l = some (c, r)) : c = pat ∧ l = pat ++ r := by
  simp only [lit] at h
  split_ifs at h with hp
  simp only [Option.some.injEq, Prod.mk.injEq] at h
  refine ⟨h.1.symm, ?_⟩
  rw [← h.2]
  exact isPrefixOfChars_append_drop hp

theorem spaces1_spec {l w r : List Char}
    (h : spaces1 l = some (w, r)) : l = w ++ r := by
  simp only [spaces1] at h
  split_ifs at h with hp
  simp only [Option.some.injEq, Prod.mk.injEq] at h
  rw [← h.1, ← h.2]
  exact (List.takeWhile_append_dropWhile _ _).symm

theorem quoteChar_spec {l : List Char} {c : Char} {r : List Char}
    (h : quoteChar l = some (c, r)) : l = c :: r := by
  cases l with
  | nil => simp [quoteChar] at h
  | cons x rest =>
      simp only [quoteChar] at h
      split_ifs at h with hq
      simp only [Option.some.injEq, Prod.mk.injEq] at h
      rw [← h.1, ← h.2]

theorem expectChar_spec {c : Char} {l r : List Char}
    (h : expectChar c l = some r) : l = c :: r := by
  cases l with
  | nil => simp [expectChar] at h
  | cons d rest =>
      simp only [expectChar] at h
      split_ifs at h with hd
      simp only [Option.some.injEq] at h
      rw [← h, show d = c from by simpa using hd]

theorem optSemi_spec (l : List Char) : l = (optSemi l).1 ++ (optSemi l).2 := by
  cases l with
  | nil => simp [optSemi]
  | cons d rest =>
      simp only [optSemi]
      split_ifs with hd
      · simp
      · simp

theorem parseLucideTail_spec {l g3 rest : List Char}
    (h : parseLucideTail l = some (g3, rest)) :
    l = g3 ++ rest ∧ ∃ g3t, g3 = closeBrace :: g3t := by
  rw [parseLucideTail] at h
  simp only [Option.bind_eq_bind, Option.bind_eq_some, Option.pure_def,
    Option.some.injEq, Prod.mk.injEq, Prod.exists] at h
  obtain ⟨l1, he, h⟩ := h
  obtain ⟨w1, l2, hs1, h⟩ := h
  obtain ⟨f, l3, hl1, h⟩ := h
  obtain ⟨w2, l4, hs2, h⟩ := h
  obtain ⟨q1, l5, hq1, h⟩ := h
  obtain ⟨lr, l6, hl2, h⟩ := h
  obtain ⟨q2, l7, hq2, hg, hr⟩ := h
  have e0 := expectChar_spec he
  have e1 := spaces1_spec hs1
  have e2 : l2 = f ++ l3 := by rw [(lit_spec hl1).2, (lit_spec hl1).1]
  have e3 := spaces1_spec hs2
  have e4 := quoteChar_spec hq1
  have e5 : l5 = lr ++ l6 := by rw [(lit_spec hl2).2, (lit_spec hl2).1]
  have e6 := quoteChar_spec hq2
  have e7 := optSemi_spec l7
  refine ⟨?_, ⟨_, hg.symm⟩⟩
  rw [← hg, ← hr]
  rw [e0, e1, e2, e3, e4, e5, e6]
  conv_lhs => rw [e7]
  simp

theorem matchLucideAt_spec {l g1 g2 g3 tail : List Char}
    (h : matchLucideAt l = some (g1, g2, g3, tail)) :
    l = g1 ++ g2 ++ g3 ++ tail
    ∧ (∃ g1p, g1 = g1p ++ [openBrace])
    ∧ ∃ g3t, g3 = closeBrace :: g3t := by
  rw [matchLucideAt] at h
  simp only [Option.bind_eq_bind, Option.bind_eq_some, Prod.exists] at h
  obtain ⟨im, l1, him, h⟩ := h
  obtain ⟨w1, l2, hw, h⟩ := h
  obtain ⟨l3, he, h⟩ := h
  split_ifs at h with hg2
  simp only [Option.bind_eq_some, Option.pure_def, Option.some.injEq,
    Prod.mk.injEq, Prod.exists] at h
  obtain ⟨g3v, tailv, hpt, h1, h2, h3, h4⟩ := h
  obtain ⟨hpt1, hpt2⟩ := parseLucideTail_spec hpt
  have e1 : l = im ++ l1 := by rw [(lit_spec him).2, (lit_spec him).1]
  have e2 := spaces1_spec hw
  have e0 := expectChar_spec he
  refine ⟨?_, ⟨im ++ w1, h1.symm⟩, by rw [← h3]; exact hpt2⟩
  have e3 : l3.takeWhile (fun d => !(d == closeBrace))
      ++ l3.drop (l3.takeWhile
        (fun d => !(d == closeBrace))).length = l3 := by
    obtain ⟨t, ht⟩ :=
      List.takeWhile_prefix (l := l3) (p := fun d => !(d == closeBrace))
    have hgen : ∀ (p t2 u : List Char), p ++ t2 = u →
        u.drop p.length = t2 := by
      intro p t2 u hpt
      rw [← hpt, List.drop_left]
    rw [hgen _ _ _ ht]
    exact ht
  set k := l3.takeWhile (fun d => !(d == closeBrace)) with hk
  have e5 : l3 = k ++ (g3v ++ tailv) := by
    rw [← hpt1]
    exact e3.symm
  rw [← h1, ← h2, ← h3, ← h4, e1, e2, e0, e5]
  simp

theorem findLucide_spec : ∀ {l pre g1 g2 g3 tail : List Char},
    findLucide l = some (pre, g1, g2, g3, tail) →
    l = pre ++ g1 ++ g2 ++ g3 ++ tail
    ∧ (∃ g1p, g1 = g1p ++ [openBrace])
    ∧ ∃ g3t, g3 = closeBrace :: g3t := by
  intro l
  induction l with
  | nil => intro pre g1 g2 g3 tail h; simp [findLucide] at h
  | cons c rest ih =>
      intro pre g1 g2 g3 tail h
      rw [findLucide] at h
      cases hm : matchLucideAt (c :: rest) with
      | some p =>
          obtain ⟨g1v, g2v, g3v, tailv⟩ := p
          rw [hm] at h
          simp only [Option.some.injEq, Prod.mk.injEq] at h
          obtain ⟨h0, h1, h2, h3, h4⟩ := h
          obtain ⟨e1, e2, e3⟩ := matchLucideAt_spec hm
          subst h1 h2 h3 h4
          rw [← h0]
          exact ⟨by simpa using e1, e2, e3⟩
      | none =>
          rw [hm] at h
          cases hf : findLucide rest with
          | none => rw [hf] at h; simp at h
          | some p =>
              obtain ⟨prev, g1v, g2v, g3v, tailv⟩ := p
              rw [hf] at h
              simp only [Option.some.injEq, Prod.mk.injEq] at h
              obtain ⟨h0, h1, h2, h3, h4⟩ := h
              obtain ⟨e1, e2, e3⟩ := ih hf
              subst h1 h2 h3 h4
              rw [← h0, e1]
              exact ⟨by simp, e2, e3⟩

theorem matchDirectiveAt_spec {l m rest : List Char}
    (h : matchDirectiveAt l = some (m, rest)) :
    ∃ x, m = dqDirective.toList ++ x := by
  rw [matchDirectiveAt] at h
  simp only [Option.bind_eq_bind, Option.bind_eq_some, Prod.exists] at h
  obtain ⟨d, l1, hd, h⟩ := h
  have e1 := (lit_spec hd).1
  cases hs : splitAfterLastNewline
      ((optSemi l1).2.takeWhile isSpaceChar) with
  | none => rw [hs] at h; simp at h
  | some p =>
      obtain ⟨w1, w2⟩ := p
      rw [hs] at h
      simp only [Option.pure_def, Option.some.injEq, Prod.mk.injEq] at h
      exact ⟨_, by rw [← h.1, e1, List.append_assoc]⟩

theorem findDirective_spec : ∀ {l pre m rest : List Char},
    findDirective l = some (pre, m, rest) →
    ∃ x, m = dqDirective.toList ++ x := by
  intro l
  induction l with
  | nil => intro pre m rest h; simp [findDirective] at h
  | cons c tl ih =>
      intro pre m rest h
      rw [findDirective] at h
      cases hm : matchDirectiveAt (c :: tl) with
      | some p =>
          obtain ⟨mv, tailv⟩ := p
          rw [hm] at h
          simp only [Option.some.injEq, Prod.mk.injEq] at h
          obtain ⟨h0, h1, h2⟩ := h
          subst h1
          exact matchDirectiveAt_spec hm
      | none =>
          rw [hm] at h
          cases hf : findDirective tl with
          | none => rw [hf] at h; simp at h
          | some p =>
              obtain ⟨prev, mv, tailv⟩ := p
              rw [hf] at h
              simp only [Option.some.injEq, Prod.mk.injEq] at h
              obtain ⟨h0, h1, h2⟩ := h
              subst h1
              exact ih hf

/-! ### Directive preservation under the import splice -/

theorem mem_of_getLast? {l : List Char} {c : Char}
    (h : l.getLast? = some c) : c ∈ l := by
  cases l with
  | nil => simp at h
  | cons x xs =>
      rw [List.getLast?_eq_getLast (x :: xs) (by simp)] at h
      simp only [Option.some.injEq] at h
      rw [← h]
      exact List.getLast_mem _

/-- An occurrence of a brace-free pattern in `A ++ B ++ C`, where `A` ends
with an opening brace and `C` starts with a closing brace, lies entirely
within `A`, `B` or `C`. -/
theorem infix_of_append_three {pat A B C : List Char}
    (h : pat <:+: (A ++ B ++ C))
    (hA : ∃ A0, A = A0 ++ [openBrace])
    (hC : ∃ C0, C = closeBrace :: C0)
    (hob : openBrace ∉ pat) (hcb : closeBrace ∉ pat) :
    pat <:+: A ∨ pat <:+: B ∨ pat <:+: C := by
  obtain ⟨s, t, hst⟩ := h
  obtain ⟨A0, hA0⟩ := hA
  obtain ⟨C0, hC0⟩ := hC
  rw [List.append_assoc] at hst
  rw [List.append_assoc] at hst
  rcases List.append_eq_append_iff.mp hst with ⟨w, hw1, hw2⟩ | ⟨w, hw1, hw2⟩
  · -- hw1 : A = s ++ w, hw2 : pat ++ t = w ++ (B ++ C)
    rcases List.append_eq_append_iff.mp hw2.symm with
      ⟨z, hz1, hz2⟩ | ⟨z, hz1, hz2⟩
    · -- hz1 : pat = w ++ z, hz2 : B ++ C = z ++ t
      cases w with
      | nil =>
          simp only [List.nil_append] at hz1
          -- pat = z, B ++ C = pat ++ t
          rcases List.append_eq_append_iff.mp hz2.symm with
            ⟨y, hy1, hy2⟩ | ⟨y, hy1, hy2⟩
          · -- hy1 : B = z ++ y
            right; left
            exact ⟨[], y, by rw [hy1, hz1]; simp⟩
          · -- hy1 : z = B ++ y, hy2 : C = y ++ t
            cases y with
            | nil =>
                right; left
                simp only [List.append_nil] at hy1
                exact ⟨[], [], by rw [← hy1, hz1]; simp⟩
            | cons yh ytl =>
                exfalso
                rw [hC0, List.cons_append] at hy2
                injection hy2 with hh _
                apply hcb
                rw [hz1, hy1, ← hh]
                simp
      | cons wh wtl =>
          exfalso
          have h1 : (A0 ++ [openBrace]).getLast? = some openBrace := by simp
          have h2 : A.getLast? = (wh :: wtl).getLast? := by
            rw [hw1, List.getLast?_append_cons]
          rw [hA0, h1] at h2
          apply hob
          rw [hz1]
          exact List.mem_append_left _ (mem_of_getLast? h2.symm)
    · -- hz1 : w = pat ++ z, hz2 : t = z ++ (B ++ C) : pat inside A
      left
      exact ⟨s, z, by rw [hw1, hz1, List.append_assoc]⟩
  · -- hw1 : s = A ++ w, hw2 : B ++ C = w ++ (pat ++ t)
    rcases List.append_eq_append_iff.mp hw2 with
      ⟨u, hu1, hu2⟩ | ⟨u, hu1, hu2⟩
    · -- hu1 : w = B ++ u, hu2 : C = u ++ (pat ++ t)
      right; right
      exact ⟨u, t, by rw [hu2, List.append_assoc]⟩
    · -- hu1 : B = w ++ u, hu2 : pat ++ t = u ++ C
      rcases List.append_eq_append_iff.mp hu2.symm with
        ⟨z, hz1, hz2⟩ | ⟨z, hz1, hz2⟩
      · -- hz1 : pat = u ++ z, hz2 : C = z ++ t
        cases z with
        | nil =>
            right; left
            simp only [List.append_nil] at hz1
            exact ⟨w, [], by rw [hu1, hz1]; simp⟩
        | cons zh ztl =>
            exfalso
            rw [hC0, List.cons_append] at hz2
            injection hz2 with hh _
            apply hcb
            rw [hz1, ← hh]
            simp
      · -- hz1 : u = pat ++ z, hz2 : t = z ++ C : pat inside B
        right; left
        exact ⟨w, z, by rw [hu1, hz1, List.append_assoc]⟩

theorem dropWhile_append_of_head (p : Char → Bool) (u : List Char)
    (hc : Char) (pt v : List Char) (hph : p hc = false) :
    List.dropWhile p (u ++ (hc :: pt) ++ v) =
      List.dropWhile p u ++ (hc :: pt) ++ v := by
  induction u with
  | nil =>
      simp only [List.nil_append, List.cons_append, List.dropWhile_cons, hph]
      simp
  | cons a u2 ih =>
      have hl : ((a :: u2) ++ (hc :: pt)) ++ v
          = a :: ((u2 ++ (hc :: pt)) ++ v) := by simp
      rw [hl, List.dropWhile_cons]
      by_cases hpa : p a = true
      · rw [if_pos hpa, List.dropWhile_cons, if_pos hpa]
        exact ih
      · rw [if_neg hpa, List.dropWhile_cons, if_neg hpa]
        simp

theorem infix_dropWhile (p : Char → Bool) {pat l : List Char}
    (h : pat <:+: l) {hc : Char} {pt : List Char}
    (hpat : pat = hc :: pt) (hph : p hc = false) :
    pat <:+: l.dropWhile p := by
  obtain ⟨s, t, hst⟩ := h
  subst hpat
  refine ⟨List.dropWhile p s, t, ?_⟩
  rw [← hst, dropWhile_append_of_head p s hc pt t hph]

theorem infix_dropTrailingWhile (p : Char → Bool) {pat l : List Char}
    (h : pat <:+: l) {lc : Char} {pr : List Char}
    (hrev : pat.reverse = lc :: pr) (hpl : p lc = false) :
    pat <:+: dropTrailingWhile p l := by
  have h1 : pat.reverse <:+: l.reverse := List.reverse_infix.mpr h
  have h2 : pat.reverse <:+: (l.reverse.dropWhile p) :=
    infix_dropWhile p h1 hrev hpl
  have h3 := List.reverse_infix.mpr h2
  rw [List.reverse_reverse] at h3
  exact h3

theorem infix_pyStrip {pat l : List Char} (h : pat <:+: l)
    {hc : Char} {pt : List Char} (hpat : pat = hc :: pt)
    (hhsp : isSpaceChar hc = false)
    {lc : Char} {pr : List Char} (hrev : pat.reverse = lc :: pr)
    (hlsp : isSpaceChar lc = false) :
    pat <:+: pyStrip l := by
  unfold pyStrip
  exact infix_dropTrailingWhile isSpaceChar
    (infix_dropWhile isSpaceChar h hpat hhsp) hrev hlsp

/-- The occurrence survives the splice of `extendLucideImport`. -/
theorem pattern_infix_extendLucide {pat pre g1 g2 g3 tail : List Char}
    (missing : List (List Char))
    (hinf : pat <:+: (pre ++ g1 ++ g2 ++ g3 ++ tail))
    (hg1 : ∃ g1p, g1 = g1p ++ [openBrace])
    (hg3 : ∃ g3t, g3 = closeBrace :: g3t)
    (hob : openBrace ∉ pat) (hcb : closeBrace ∉ pat)
    {hc : Char} {pt : List Char} (hpat : pat = hc :: pt)
    (hhsp : isSpaceChar hc = false)
    {lc : Char} {pr : List Char} (hrev : pat.reverse = lc :: pr)
    (hlsp : isSpaceChar lc = false) (hlcm : (lc == ',') = false) :
    pat <:+: extendLucideImport pre g1 g2 g3 tail missing := by
  obtain ⟨g1p, hg1e⟩ := hg1
  obtain ⟨g3t, hg3e⟩ := hg3
  have hinf2 : pat <:+: ((pre ++ g1) ++ g2 ++ (g3 ++ tail)) := by
    have heq : pre ++ g1 ++ g2 ++ g3 ++ tail
        = (pre ++ g1) ++ g2 ++ (g3 ++ tail) := by
      simp [List.append_assoc]
    rw [← heq]
    exact hinf
  rcases infix_of_append_three hinf2
      ⟨pre ++ g1p, by rw [hg1e, List.append_assoc]⟩
      ⟨g3t ++ tail, by rw [hg3e]; rfl⟩ hob hcb with h | h | h
  · have hres : extendLucideImport pre g1 g2 g3 tail missing
        = (pre ++ g1) ++ ([' ']
            ++ dropTrailingWhile (fun c => c == ',') (pyStrip g2)
            ++ ", ".toList ++ joinNames missing
            ++ [' '] ++ g3 ++ tail) := by
      unfold extendLucideImport
      simp [List.append_assoc]
    rw [hres]
    exact h.trans (List.prefix_append _ _).isInfix
  · have h2 : pat <:+: dropTrailingWhile (fun c => c == ',') (pyStrip g2) :=
      infix_dropTrailingWhile _ (infix_pyStrip h hpat hhsp hrev hlsp)
        hrev hlcm
    have hres : extendLucideImport pre g1 g2 g3 tail missing
        = (pre ++ g1 ++ [' '])
            ++ dropTrailingWhile (fun c => c == ',') (pyStrip g2)
            ++ (", ".toList ++ joinNames missing ++ [' '] ++ g3 ++ tail) := by
      unfold extendLucideImport
      simp [List.append_assoc]
    rw [hres]
    refine h2.trans ⟨pre ++ g1 ++ [' '],
      ", ".toList ++ joinNames missing ++ [' '] ++ g3 ++ tail, rfl⟩
  · have hres : extendLucideImport pre g1 g2 g3 tail missing
        = (pre ++ g1 ++ [' ']
            ++ dropTrailingWhile (fun c => c == ',') (pyStrip g2)
            ++ ", ".toList ++ joinNames missing ++ [' '])
            ++ (g3 ++ tail) := by
      unfold extendLucideImport
      simp [List.append_assoc]
    rw [hres]
    exact h.trans (List.suffix_append _ _).isInfix

/-- A successful directive-line match keeps the double-quoted directive in
the rebuilt content. -/
theorem findDirective_result_hasDirective {l pre m rest : List Char}
    (hfd : findDirective l = some (pre, m, rest)) (extra : List Char) :
    hasDirective (pre ++ m ++ extra ++ rest) = true := by
  obtain ⟨x, hx⟩ := findDirective_spec hfd
  unfold hasDirective
  have h1 : dqDirective.toList <:+: (pre ++ m ++ extra ++ rest) := by
    refine ⟨pre, x ++ extra ++ rest, ?_⟩
    rw [hx]
    simp [List.append_assoc]
  rw [(isInfixOfChars_iff _ _).mpr h1, Bool.true_or]

/-- `_fix_missing_imports` preserves the directive. -/
theorem fixMissingImports_hasDirective {l : List Char}
    (h : hasDirective l = true) :
    hasDirective (fixMissingImports l) = true := by
  unfold fixMissingImports
  split_ifs with hm
  · exact h
  cases hfl : findLucide l with
  | none =>
      cases hfd : findDirective l with
      | none => exact h
      | some p =>
          obtain ⟨pre, m, rest⟩ := p
          exact findDirective_result_hasDirective hfd _
  | some p =>
      obtain ⟨pre, g1, g2, g3, tail⟩ := p
      obtain ⟨hdec, hg1, hg3⟩ := findLucide_spec hfl
      unfold hasDirective at h
      rcases Bool.or_eq_true_iff.mp h with hd | hd
      · have hinf := (isInfixOfChars_iff _ _).mp hd
        rw [hdec] at hinf
        have h2 := pattern_infix_extendLucide (missingLucide l) hinf hg1 hg3
          (by decide) (by decide)
          (show dqDirective.toList = '"' :: dqDirective.toList.tail
            from by decide)
          (by decide)
          (show dqDirective.toList.reverse
              = '"' :: dqDirective.toList.reverse.tail from by decide)
          (by decide) (by decide)
        unfold hasDirective
        rw [(isInfixOfChars_iff _ _).mpr h2, Bool.true_or]
      · have hinf := (isInfixOfChars_iff _ _).mp hd
        rw [hdec] at hinf
        have h2 := pattern_infix_extendLucide (missingLucide l) hinf hg1 hg3
          (by decide) (by decide)
          (show sqDirective.toList = squote :: sqDirective.toList.tail
            from by decide)
          (by decide)
          (show sqDirective.toList.reverse
              = squote :: sqDirective.toList.reverse.tail from by decide)
          (by decide) (by decide)
        unfold hasDirective
        rw [(isInfixOfChars_iff _ _).mpr h2, Bool.or_true]

/-- `_clean_code` always yields the directive. -/
theorem cleanCode_hasDirective (l : List Char) :
    hasDirective (cleanCode l) = true :=
  fixMissingImports_hasDirective
    (ensureUseClient_hasDirective (preCleanChars l))

/-- `_clean_code` never yields empty content. -/
theorem cleanCode_ne_nil (l : List Char) : cleanCode l ≠ [] :=
  hasDirective_ne_nil (cleanCode_hasDirective l)

/-- C10: every file record returned by the multi-file output parser has
non-empty content that contains a use client directive: the cleaning pass
strips markdown fences and preamble and prepends the directive whenever
neither a double- nor single-quoted form is already present, and the
import-fixing pass preserves it, so no parsed artifact ever lacks it. -/
theorem C10_parsed_files_use_client
    (segments : List (String × List Char)) (raw : List Char)
    (inferredPath : String) :
    (∀ l, hasDirective (cleanCode l) = true ∧ cleanCode l ≠ [])
    ∧ (∀ f ∈ parseFilesFromSegments segments,
        f.2 ≠ [] ∧ hasDirective f.2 = true)
    ∧ (∀ f ∈ parseNoDelimiter raw inferredPath,
        f.2 ≠ [] ∧ hasDirective f.2 = true) := by
  refine ⟨fun l => ⟨cleanCode_hasDirective l, cleanCode_ne_nil l⟩, ?_, ?_⟩
  · intro f hf
    unfold parseFilesFromSegments at hf
    obtain ⟨a, ha, hfa⟩ := List.mem_filterMap.mp hf
    by_cases he : (cleanCode a.2).isEmpty = true
    · rw [if_pos he] at hfa
      simp at hfa
    · rw [if_neg he] at hfa
      obtain ⟨p, q⟩ := f
      simp only [Option.some.injEq, Prod.mk.injEq] at hfa
      obtain ⟨h1, h2⟩ := hfa
      subst h2
      dsimp only
      exact ⟨cleanCode_ne_nil a.2, cleanCode_hasDirective a.2⟩
  · intro f hf
    unfold parseNoDelimiter at hf
    by_cases he : (cleanCode raw).isEmpty = true
    · rw [if_pos he] at hf
      simp at hf
    · rw [if_neg he] at hf
      simp only [List.mem_singleton] at hf
      subst hf
      dsimp only
      exact ⟨cleanCode_ne_nil raw, cleanCode_hasDirective raw⟩

/-- C10 witness: the invariant instantiated at the empty raw content. -/
theorem C10_parsed_files_use_client_witness :
    hasDirective (cleanCode []) = true ∧ cleanCode [] ≠ [] :=
  (C10_parsed_files_use_client [] [] "app/page.tsx").1 []

end Clonr
